import Mathlib

/-!
# Shallow embedding of the lzpi LZ77 codec (src/lzpi.c)

Byte streams are `List Nat` with values below 256.  `size_t` indices are
modelled as `Nat`: the C indices grow monotonically from 0 and are only
used through `ring_mask`, so no wraparound occurs for the streams
considered.  Stack arrays that the C code leaves uninitialized are
modelled as explicit function parameters, or as the all-zero function
where a read of an uninitialized cell is impossible for the states the
theorems quantify over.  Loops whose termination is not structural carry
an explicit fuel; fuel-sufficiency lemmas below show the fuel chosen
never runs out on the states of interest.
-/

namespace Lzpi

/-- RING_SIZE = ((size_t)1 << 8). -/
def RING_SIZE : Nat := 256

/-- Rotate a 32-bit value left one bit: `(v << 1) | (v >> 31)`. -/
def rol (v : Nat) : Nat := ((v <<< 1) ||| (v >>> 31)) % (2 ^ 32)

/-- Iterated rotation, used to describe the mask after k calls. -/
def rolIter : Nat → Nat → Nat
  | 0, v => v
  | k + 1, v => rol (rolIter k v)

/-- The mask seed `(1 << 31) | (1 << 23) | (1 << 15) | (1 << 7)`. -/
def MSK0 : Nat := (1 <<< 31) ||| (1 <<< 23) ||| (1 <<< 15) ||| (1 <<< 7)

/-- A ring buffer defined by a head `hd` and a tail `tl` (struct ring). -/
structure Ring where
  hd : Nat
  tl : Nat
deriving Repr, DecidableEq

/-- Used space: `r->hd - r->tl` (size_t subtraction; `hd ≥ tl` on all
reachable rings, so Nat subtraction is faithful). -/
def ring_size (r : Ring) : Nat := r.hd - r.tl

/-- Free space: `RING_SIZE - ring_size r`. -/
def ring_capacity (r : Ring) : Nat := RING_SIZE - ring_size r

/-- Mask an index for a ring: `val & ((RING_SIZE << 1) - 1)`. -/
def ring_mask (val : Nat) : Nat := val % (RING_SIZE <<< 1)

/-- Contiguous free space: `(RING_SIZE << 1) - ring_mask r.hd`. -/
def ring_run (r : Ring) : Nat := (RING_SIZE <<< 1) - ring_mask r.hd

/-- Pointwise update of a byte store (a C array cell assignment). -/
def updN (f : Nat → Nat) (k v : Nat) : Nat → Nat :=
  fun x => if x = k then v else f x

/-- Write a block of bytes at consecutive physical offsets (one fread). -/
def writeBytes (f : Nat → Nat) (pos : Nat) : List Nat → (Nat → Nat)
  | [] => f
  | x :: xs => writeBytes (updN f pos x) (pos + 1) xs

/-- The lz77 sliding window: two consecutive rings over one 2*RING_SIZE
byte buffer (struct wnd).  The buffer is a total function; only masked
indices below 512 are ever used. -/
structure Wnd where
  dictionary : Ring
  lookahead : Ring
  bf : Nat → Nat

/-- wnd_init: both rings zeroed.  The C buffer is uninitialized stack
memory, modelled by the arbitrary initial store `bf0`. -/
def wnd_init (bf0 : Nat → Nat) : Wnd :=
  { dictionary := ⟨0, 0⟩, lookahead := ⟨0, 0⟩, bf := bf0 }

/-- wnd_shift: move `n` bytes from the lookahead to the dictionary,
dropping the oldest dictionary bytes when it would overflow. -/
def wnd_shift (w : Wnd) (n : Nat) : Wnd :=
  let c := ring_capacity w.dictionary
  { w with
    dictionary := ⟨w.dictionary.hd + n,
                   w.dictionary.tl + (if c < n then n - c else 0)⟩,
    lookahead := ⟨w.lookahead.hd, w.lookahead.tl + n⟩ }

/-- wnd_read: fill the lookahead from the source until full or end of
stream.  The C loop performs at most two fread rounds (a second round
happens only after a full first round that stopped at the physical end
of the buffer, after which the contiguous run is the whole buffer), so
it is unrolled here.  Returns the new window, the remaining source, and
`true` when the C function returns EOF. -/
def wnd_read (w : Wnd) (src : List Nat) : Wnd × List Nat × Bool :=
  let r := ring_run w.lookahead
  let c := ring_capacity w.lookahead
  let u := min c r
  let n := min u src.length
  let w1 : Wnd := { w with
    bf := writeBytes w.bf (ring_mask w.lookahead.hd) (src.take n),
    lookahead := ⟨w.lookahead.hd + n, w.lookahead.tl⟩ }
  let src1 := src.drop n
  if n ≠ u then (w1, src1, true)
  else if c = u then (w1, src1, false)
  else
    let r2 := ring_run w1.lookahead
    let c2 := ring_capacity w1.lookahead
    let u2 := min c2 r2
    let n2 := min u2 src1.length
    let w2 : Wnd := { w1 with
      bf := writeBytes w1.bf (ring_mask w1.lookahead.hd) (src1.take n2),
      lookahead := ⟨w1.lookahead.hd + n2, w1.lookahead.tl⟩ }
    let src2 := src1.drop n2
    if n2 ≠ u2 then (w2, src2, true) else (w2, src2, false)

/-- Loop body of kmp_init, with fuel.  State: cursors `i`, `j` and the
failure table `t` (values stored through uint8_t, hence the mod 256).
Returns `none` on fuel exhaustion. -/
def kmpInitLoop (w : Wnd) : Nat → Nat → Nat → (Nat → Nat) → Option (Nat → Nat)
  | 0, _, _, _ => none
  | fuel + 1, i, j, t =>
    if w.bf (ring_mask i) = w.bf (ring_mask j) then
      let t2 := updN t (j - w.lookahead.tl) ((i + 1 - w.lookahead.tl) % 256)
      if j + 1 = w.lookahead.hd then some t2
      else kmpInitLoop w fuel (i + 1) (j + 1) t2
    else if i = w.lookahead.tl then
      let t2 := updN t (j - w.lookahead.tl) 0
      if j + 1 = w.lookahead.hd then some t2
      else kmpInitLoop w fuel i (j + 1) t2
    else kmpInitLoop w fuel (w.lookahead.tl + t (i - w.lookahead.tl - 1)) j t

/-- Fuel for `kmpInitLoop`; a potential argument below shows it suffices. -/
def kmpInitFuel (w : Wnd) : Nat := 3 * ring_size w.lookahead + 3

/-- kmp_init: build the failure table of the lookahead.  `t0` is the
caller's (uninitialized) table; it is returned untouched when the
lookahead has fewer than 2 bytes. -/
def kmp_init (t0 : Nat → Nat) (w : Wnd) : Option (Nat → Nat) :=
  if ring_size w.lookahead < 2 then some t0
  else kmpInitLoop w (kmpInitFuel w) w.lookahead.tl (w.lookahead.tl + 1) (updN t0 0 0)

/-- A pair of offset `o` and length `l` (struct pair). -/
structure Pair where
  o : Nat
  l : Nat
deriving Repr, DecidableEq

/-- Loop body of kmp_search, with fuel.  `a` is the failure table. -/
def kmpLoop (w : Wnd) (a : Nat → Nat) : Nat → Nat → Nat → Pair → Option Pair
  | 0, _, _, _ => none
  | fuel + 1, i, j, p =>
    if j = w.lookahead.hd then some p
    else
      let l := i - w.lookahead.tl
      let o := j - w.dictionary.tl - l
      if o = ring_size w.dictionary then some p
      else if w.bf (ring_mask i) = w.bf (ring_mask j) then
        if i + 1 = w.lookahead.hd then some ⟨o, l + 1⟩
        else kmpLoop w a fuel (i + 1) (j + 1) p
      else if i = w.lookahead.tl then kmpLoop w a fuel i (j + 1) p
      else kmpLoop w a fuel (w.lookahead.tl + a (l - 1)) j
        (if p.l < l then ⟨o, l⟩ else p)

/-- Fuel for `kmpLoop`; a potential argument below shows it suffices. -/
def kmpSearchFuel (w : Wnd) : Nat := 3 * (w.lookahead.hd - w.dictionary.tl) + 3

/-- kmp_search: longest partial match of the lookahead in the
dictionary, allowing overlap into the lookahead.  The uint8_t scratch
table is uninitialized in C; it is modelled as zero, and no theorem
below depends on cells outside the initialized prefix. -/
def kmp_search (w : Wnd) : Option Pair :=
  match kmp_init (fun _ => 0) w with
  | none => none
  | some a => kmpLoop w a (kmpSearchFuel w) w.lookahead.tl w.dictionary.tl ⟨0, 0⟩

/-- A match token (struct match): `l = 0` means the raw byte `o` (the C
union overlays `v` on `o`); otherwise a back reference with stored
offset `o` and stored length `l`. -/
structure Mtch where
  o : Nat
  l : Nat
deriving Repr, DecidableEq

/-- Raw byte view of a literal token (the union member `v`). -/
def Mtch.v (m : Mtch) : Nat := m.o

/-- The literal-vs-backreference condition of `match` (the heuristic
"not worth encoding" test, with C operator precedence). -/
def notWorth (w : Wnd) (p : Pair) : Prop :=
  p.l < 2 ∨
    (p.l = 2 ∧ 3 < ring_size w.lookahead ∧
      w.bf (ring_mask (w.lookahead.tl + 2)) = w.bf (ring_mask w.lookahead.tl) ∧
      (w.bf (ring_mask (w.lookahead.tl + 3)) = w.bf (ring_mask w.lookahead.tl) ∨
        w.bf (ring_mask (w.lookahead.tl + 3)) =
          w.bf (ring_mask (w.dictionary.tl + p.l))))

instance (w : Wnd) (p : Pair) : Decidable (notWorth w p) := by
  unfold notWorth; infer_instance

/-- The function `match` (renamed: `match` is reserved in Lean).  The
stored offset is the size_t expression `ring_size dict - p.o - 1`
truncated to uint8_t, written with an explicit 2^64 two's-complement
wraparound; the stored length is `(uint8_t)p.l - 1` truncated to
uint8_t. -/
def matchLz (w : Wnd) : Option (Mtch × Wnd) :=
  match kmp_search w with
  | none => none
  | some p =>
    if notWorth w p then
      some (⟨w.bf (ring_mask w.lookahead.tl), 0⟩, wnd_shift w 1)
    else
      some (⟨((2 ^ 64 + ring_size w.dictionary - (p.o + 1)) % 2 ^ 64) % 256,
             (p.l % 256 + 255) % 256⟩,
            wnd_shift w p.l)

/-- Byte serialization of a token list (the putc calls of `encode`). -/
def tokBytes : List Mtch → List Nat
  | [] => []
  | m :: ms => (if m.l = 0 then [m.v] else [m.o, m.l]) ++ tokBytes ms

/-- encode: one control byte (truncated to a byte by putc) then the
token bytes. -/
def encode (ms : List Mtch) (c : Nat) : List Nat := c % 256 :: tokBytes ms

/-- The compression context (struct ctx).  The group array `m` together
with the count `n` is modelled as the list `g` of the `n` stored tokens;
storing at `m[n]` appends, flushing empties the list. -/
structure Ctx where
  g : List Mtch
  c : Nat
  msk : Nat
  w : Wnd

/-- ctx_init.  The C code leaves `n` and `c` uninitialized; `n` is set
to 0 by `compress` and `c` is assigned before first use (the first
helper call always lands on a group boundary), so both are modelled
as 0. -/
def ctx_init (bf0 : Nat → Nat) : Ctx :=
  { g := [], c := 0, msk := MSK0, w := wnd_init bf0 }

/-- Failure modes of the compression model: an out-of-bounds store into
the 8-entry group array (C undefined behavior), or fuel exhaustion of a
modelled loop.  Both are proved unreachable below. -/
inductive CErr where
  | oob
  | fuel
deriving Repr, DecidableEq

/-- compress_helper: rotate the mask; on a group boundary flush the
pending group and clear the control byte; run `match` and store its
token, OR-ing the mask into the control byte for a back reference.
Returns the updated context and the bytes written to the sink. -/
def compress_helper (ctx : Ctx) : Except CErr (Ctx × List Nat) :=
  let msk := rol ctx.msk
  let out := if msk % 2 = 1 ∧ ctx.g ≠ [] then encode ctx.g ctx.c else []
  let g0 := if msk % 2 = 1 then [] else ctx.g
  let c0 := if msk % 2 = 1 then 0 else ctx.c
  match matchLz ctx.w with
  | none => .error .fuel
  | some (m, w2) =>
    if g0.length < 8 then
      .ok ({ g := g0 ++ [m],
             c := if m.l ≠ 0 then c0 ||| msk else c0,
             msk := msk, w := w2 }, out)
    else .error .oob

/-- The drain loop of `compress`: compress the remaining lookahead after
the source has hit end of stream, then encode the last partial group. -/
def compressDrain : Nat → Ctx → List Nat → Except CErr (List Nat)
  | 0, _, _ => .error .fuel
  | fuel + 1, ctx, out =>
    if ring_size ctx.w.lookahead = 0 then
      if ctx.g = [] then .ok out else .ok (out ++ encode ctx.g ctx.c)
    else
      match compress_helper ctx with
      | .error e => .error e
      | .ok (ctx2, bytes) => compressDrain fuel ctx2 (out ++ bytes)

/-- The main loop of `compress`: refill the lookahead, then compress one
segment; on end of stream fall through to the drain loop. -/
def compressMain : Nat → Ctx → List Nat → List Nat → Except CErr (List Nat)
  | 0, _, _, _ => .error .fuel
  | fuel + 1, ctx, src, out =>
    match wnd_read ctx.w src with
    | (w2, src2, eof) =>
      let ctx2 := { ctx with w := w2 }
      if eof then compressDrain (ring_size ctx2.w.lookahead + 1) ctx2 out
      else
        match compress_helper ctx2 with
        | .error e => .error e
        | .ok (ctx3, bytes) => compressMain fuel ctx3 src2 (out ++ bytes)

/-- compress: whole-stream compression of a finite byte source, with an
always-accepting sink (claim C1 assumes the absence of I/O errors).
`bf0` is the uninitialized window buffer. -/
def compress (bf0 : Nat → Nat) (src : List Nat) : Except CErr (List Nat) :=
  compressMain (src.length + 1) (ctx_init bf0) src []

/-- Decoder error modes: truncated input (short read inside a token) or
a sink write failure.  `.fuel` marks exhaustion of the modelled loop
fuel and is proved unreachable when the fuel exceeds the source
length. -/
inductive DErr where
  | truncated
  | ioError
  | fuel
deriving Repr, DecidableEq

/-- One sink write.  `cap = none` is a sink that never fails; with
`cap = some k` the write fails once `k` bytes have been accepted. -/
def putcS (cap : Option Nat) (out : List Nat) (b : Nat) : Except DErr (List Nat) :=
  match cap with
  | none => .ok (out ++ [b])
  | some k => if out.length < k then .ok (out ++ [b]) else .error .ioError

/-- The decoder's back-reference copy loop, run `cnt` times: copy the
byte `ml` behind the uint8_t write index `mo` in the rolling buffer,
append it, write it to the sink. -/
def copyLoop (cap : Option Nat) :
    Nat → (Nat → Nat) → Nat → Nat → List Nat → Except DErr ((Nat → Nat) × Nat × List Nat)
  | 0, buf, mo, _, out => .ok (buf, mo, out)
  | cnt + 1, buf, mo, ml, out =>
    let b := buf ((mo + 256 - ml) % 256)
    let buf2 := updN buf mo b
    match putcS cap out b with
    | .error e => .error e
    | .ok out2 => copyLoop cap cnt buf2 ((mo + 1) % 256) ml out2

/-- Process one token of the decoder loop: `c` is the token's first
byte, `msk` the already-rotated mask, `map` the current control byte.
Returns the new buffer, write index, output, and the number of extra
source bytes consumed (1 for the length byte of a back reference). -/
def decTok (cap : Option Nat) (map msk c : Nat) (rest : List Nat)
    (buf : Nat → Nat) (mo : Nat) (out : List Nat) :
    Except DErr ((Nat → Nat) × Nat × List Nat × Nat) :=
  if map &&& msk ≠ 0 then
    match rest with
    | [] => .error .truncated
    | n :: _ =>
      match copyLoop cap (n + 1) buf mo ((c + 1) % 256) out with
      | .error e => .error e
      | .ok (buf2, mo2, out2) => .ok (buf2, mo2, out2, 1)
  else
    match putcS cap out c with
    | .error e => .error e
    | .ok out2 => .ok (updN buf mo c, (mo + 1) % 256, out2, 0)

/-- The decoder main loop (the while loop of `decompress`), with fuel.
Reading a byte rotates the mask; when the rotated bit reaches position 0
the byte is a new control byte whose token must follow at once.  Every
iteration consumes at least one source byte, so any fuel above the
source length is enough (proved below). -/
def decLoop (cap : Option Nat) : Nat → List Nat → Nat → Nat →
    (Nat → Nat) → Nat → List Nat → Except DErr (List Nat)
  | 0, _, _, _, _, _, _ => .error .fuel
  | _ + 1, [], _, _, _, _, out => .ok out
  | fuel + 1, c :: rest, map, msk, buf, mo, out =>
    let msk2 := rol msk
    if msk2 % 2 = 1 then
      match rest with
      | [] => .error .truncated
      | c2 :: rest2 =>
        match decTok cap c msk2 c2 rest2 buf mo out with
        | .error e => .error e
        | .ok (buf2, mo2, out2, d) => decLoop cap fuel (rest2.drop d) c msk2 buf2 mo2 out2
    else
      match decTok cap map msk2 c rest buf mo out with
      | .error e => .error e
      | .ok (buf2, mo2, out2, d) => decLoop cap fuel (rest.drop d) map msk2 buf2 mo2 out2

/-- decompress: run the decoder on a byte source.  `buf0` is the
uninitialized rolling buffer and `map0` the uninitialized control-byte
register (assigned before first use: the first iteration is always a
group boundary).  `m` starts zeroed. -/
def decompress (cap : Option Nat) (buf0 : Nat → Nat) (map0 : Nat)
    (src : List Nat) : Except DErr (List Nat) :=
  decLoop cap (src.length + 1) src map0 MSK0 buf0 0 []

/-! ## Basic facts about the rotating mask -/

theorem rolIter_add (a b : Nat) (v : Nat) :
    rolIter (a + b) v = rolIter a (rolIter b v) := by
  induction a with
  | zero => simp [rolIter]
  | succ a ih => rw [Nat.succ_add]; simp [rolIter, ih]

theorem rolIter_eight : rolIter 8 MSK0 = MSK0 := by decide

/-- The mask sequence has period 8. -/
theorem rolIter_mod_eight (k : Nat) : rolIter k MSK0 = rolIter (k % 8) MSK0 := by
  induction k using Nat.strong_induction_on with
  | _ k ih =>
    by_cases h : k < 8
    · rw [Nat.mod_eq_of_lt h]
    · have h8 : k = (k - 8) + 8 := by omega
      rw [h8, rolIter_add, rolIter_eight, ih (k - 8) (by omega)]
      congr 1
      omega

theorem rolIter_low_bit_bounded :
    ∀ r, r < 8 → ((rolIter r MSK0) % 2 = 1 ↔ r = 1) := by decide

/-- The low bit of the rotated mask fires exactly on every eighth
rotation (rotation counts congruent to 1 mod 8). -/
theorem rolIter_low_bit (k : Nat) : (rolIter k MSK0) % 2 = 1 ↔ k % 8 = 1 := by
  rw [rolIter_mod_eight]
  exact rolIter_low_bit_bounded (k % 8) (Nat.mod_lt _ (by norm_num))

/-- During token `r` of a group the low byte of the mask is the single
bit `2 ^ r`. -/
theorem rolIter_low_byte : ∀ r, r < 8 → (rolIter (r + 1) MSK0) % 256 = 2 ^ r := by
  decide

set_option maxRecDepth 20000 in
/-- Testing a byte against the rotated mask tests exactly bit `r`. -/
theorem land_rolIter_testBit :
    ∀ map, map < 256 → ∀ r, r < 8 →
      ((map &&& rolIter (r + 1) MSK0 ≠ 0) ↔ Nat.testBit map r) := by
  decide

/-! ## C8: window invariants -/

/-- The window invariant of the spec: the rings are adjacent and neither
ring holds more than RING_SIZE bytes. -/
def WInv (w : Wnd) : Prop :=
  w.dictionary.hd = w.lookahead.tl ∧
    ring_size w.dictionary ≤ RING_SIZE ∧ ring_size w.lookahead ≤ RING_SIZE

instance (w : Wnd) : Decidable (WInv w) := by unfold WInv; infer_instance

/-- C8: the window invariants hold after `wnd_init` and are preserved by
`wnd_read` and by `wnd_shift` under the precondition `n ≤ look.size`. -/
theorem c8_window_invariants :
    (∀ bf0 : Nat → Nat, WInv (wnd_init bf0)) ∧
    (∀ (w : Wnd) (n : Nat), WInv w → n ≤ ring_size w.lookahead →
      WInv (wnd_shift w n)) ∧
    (∀ (w : Wnd) (src : List Nat), WInv w → WInv (wnd_read w src).1) := by
  refine ⟨fun bf0 => ⟨rfl, by simp [wnd_init, ring_size, RING_SIZE], by simp [wnd_init, ring_size, RING_SIZE]⟩, ?_, ?_⟩
  · rintro w n ⟨h1, h2, h3⟩ hn
    unfold wnd_shift ring_capacity WInv
    unfold ring_size RING_SIZE at *
    refine ⟨by simp [h1], ?_, ?_⟩
    · simp only
      split_ifs <;> omega
    · simp only
      omega
  · rintro w src ⟨h1, h2, h3⟩
    unfold wnd_read
    unfold WInv ring_capacity ring_run ring_mask ring_size RING_SIZE at *
    simp only
    split_ifs <;> refine ⟨h1, h2, ?_⟩ <;> simp only <;> omega

/-- Witness for C8 at a concrete window. -/
theorem c8_window_invariants_witness :
    WInv (wnd_shift (wnd_init (fun _ => 0)) 0) ∧
    WInv (wnd_read (wnd_init (fun _ => 0)) [1, 2]).1 :=
  ⟨c8_window_invariants.2.1 (wnd_init (fun _ => 0)) 0
      (c8_window_invariants.1 (fun _ => 0)) (by decide),
   c8_window_invariants.2.2 (wnd_init (fun _ => 0)) [1, 2]
      (c8_window_invariants.1 (fun _ => 0))⟩

/-! ## C6: decoder back-reference semantics -/

/-- Specification of an overlapping back-reference copy: append `cnt`
bytes, each read `dist` positions behind the current end of the output,
appending each byte before reading the next. -/
def overlapCopy (out : List Nat) (dist : Nat) : Nat → List Nat
  | 0 => []
  | k + 1 =>
    overlapCopy out dist k ++
      [(out ++ overlapCopy out dist k).getD (out.length + k - dist) 0]

theorem overlapCopy_length (out : List Nat) (dist : Nat) :
    ∀ cnt, (overlapCopy out dist cnt).length = cnt := by
  intro cnt
  induction cnt with
  | zero => rfl
  | succ k ih => simp [overlapCopy, ih]

theorem overlapCopy_take (out : List Nat) (dist : Nat) :
    ∀ n k, k ≤ n → (overlapCopy out dist n).take k = overlapCopy out dist k := by
  intro n
  induction n with
  | zero =>
    intro k hk
    have hk0 : k = 0 := by omega
    subst hk0
    rfl
  | succ n ih =>
    intro k hk
    rcases Nat.lt_or_ge k (n + 1) with h | h
    · rw [overlapCopy, List.take_append_of_le_length, ih k (by omega)]
      rw [overlapCopy_length]; omega
    · have hk2 : k = n + 1 := by omega
      subst hk2
      rw [List.take_of_length_le]
      rw [overlapCopy_length]

/-- Peeling the first generated byte: generating `k+1` bytes over `out`
is the first byte `b0` followed by generating `k` bytes over
`out ++ [b0]`. -/
theorem overlapCopy_succ_shift (out : List Nat) (dist : Nat)
    (b0 : Nat) (hb0 : b0 = out.getD (out.length - dist) 0) :
    ∀ k, overlapCopy out dist (k + 1) = b0 :: overlapCopy (out ++ [b0]) dist k := by
  intro k
  induction k with
  | zero =>
    show overlapCopy out dist 1 = [b0]
    have e1 : overlapCopy out dist 1 =
        overlapCopy out dist 0 ++ [(out ++ overlapCopy out dist 0).getD (out.length + 0 - dist) 0] := rfl
    rw [e1, hb0]
    simp [overlapCopy]
  | succ k ih =>
    have e1 : overlapCopy out dist (k + 1 + 1) =
        overlapCopy out dist (k + 1) ++
          [(out ++ overlapCopy out dist (k + 1)).getD (out.length + (k + 1) - dist) 0] := rfl
    have e2 : overlapCopy (out ++ [b0]) dist (k + 1) =
        overlapCopy (out ++ [b0]) dist k ++
          [((out ++ [b0]) ++ overlapCopy (out ++ [b0]) dist k).getD
            ((out ++ [b0]).length + k - dist) 0] := rfl
    have hidx : out.length + (k + 1) - dist = (out ++ [b0]).length + k - dist := by
      simp only [List.length_append, List.length_cons, List.length_nil]
      omega
    rw [e1, ih, e2, List.cons_append]
    congr 2
    rw [List.append_cons, hidx]

/-- The decoder's rolling-buffer invariant: the uint8_t write index is
the output length mod 256, and the buffer holds the last (up to 256)
output bytes at their masked positions. -/
def DInv (buf : Nat → Nat) (mo : Nat) (out : List Nat) : Prop :=
  mo = out.length % 256 ∧
    ∀ d, d < 257 → 0 < d → d ≤ out.length →
      buf ((out.length - d) % 256) = out.getD (out.length - d) 0

instance (buf : Nat → Nat) (mo : Nat) (out : List Nat) : Decidable (DInv buf mo out) := by
  unfold DInv; infer_instance

/-- One step of the copy loop reads exactly the byte `dist` behind the
end of the output. -/
theorem DInv_read (buf : Nat → Nat) (mo : Nat) (out : List Nat) (dist : Nat)
    (h : DInv buf mo out) (h1 : 0 < dist) (h2 : dist ≤ 256) (h3 : dist ≤ out.length) :
    buf ((mo + 256 - dist % 256) % 256) = out.getD (out.length - dist) 0 := by
  obtain ⟨hmo, hbuf⟩ := h
  have hidx : (mo + 256 - dist % 256) % 256 = (out.length - dist) % 256 := by
    subst hmo; omega
  rw [hidx]
  exact hbuf dist (by omega) h1 h3

/-- The invariant survives appending one byte through the buffer. -/
theorem DInv_append (buf : Nat → Nat) (mo : Nat) (out : List Nat) (b : Nat)
    (h : DInv buf mo out) :
    DInv (updN buf mo b) ((mo + 1) % 256) (out ++ [b]) := by
  obtain ⟨hmo, hbuf⟩ := h
  constructor
  · simp only [List.length_append, List.length_cons, List.length_nil]
    omega
  · intro d hd257 hd0 hdlen
    simp only [List.length_append, List.length_cons, List.length_nil] at hdlen ⊢
    rcases Nat.eq_or_lt_of_le hd0 with h1 | h1
    · have : out.length + 1 - d = out.length := by omega
      rw [this]
      have : out.length % 256 = mo := hmo.symm
      rw [updN]
      simp only [this, if_pos rfl]
      rw [List.getD_append_right out [b] 0 out.length (le_refl _)]
      simp
    · have hne : (out.length + 1 - d) % 256 ≠ mo := by
        subst hmo
        omega
      rw [updN]
      simp only [if_neg hne]
      have heq : out.length + 1 - d = out.length - (d - 1) := by omega
      rw [heq, hbuf (d - 1) (by omega) (by omega) (by omega),
        List.getD_append out [b] 0 _ (by omega)]

/-- Master lemma for the decoder copy loop: under the buffer invariant,
running it `cnt` times with the stored distance byte `dist % 256`
appends exactly `overlapCopy out dist cnt` and preserves the
invariant. -/
theorem copyLoop_ok (dist : Nat) (h1 : 0 < dist) (h2 : dist ≤ 256) :
    ∀ (cnt : Nat) (buf : Nat → Nat) (mo : Nat) (out : List Nat),
      DInv buf mo out → dist ≤ out.length →
      ∃ buf2, copyLoop none cnt buf mo (dist % 256) out =
          .ok (buf2, (out.length + cnt) % 256, out ++ overlapCopy out dist cnt) ∧
        DInv buf2 ((out.length + cnt) % 256) (out ++ overlapCopy out dist cnt) := by
  intro cnt
  induction cnt with
  | zero =>
    intro buf mo out hinv hle
    refine ⟨buf, ?_, ?_⟩
    · simp [copyLoop, overlapCopy, hinv.1]
    · simp only [Nat.add_zero, overlapCopy, List.append_nil]
      rw [← hinv.1]
      exact hinv
  | succ k ih =>
    intro buf mo out hinv hle
    have hb := DInv_read buf mo out dist hinv h1 h2 hle
    set b0 := out.getD (out.length - dist) 0 with hb0def
    have hshift := overlapCopy_succ_shift out dist b0 rfl k
    have hinv2 := DInv_append buf mo out b0 hinv
    obtain ⟨buf2, hrun, hinv3⟩ := ih (updN buf mo b0) ((mo + 1) % 256) (out ++ [b0])
      hinv2 (by simp only [List.length_append, List.length_cons, List.length_nil]; omega)
    refine ⟨buf2, ?_, ?_⟩
    · rw [copyLoop]
      simp only [hb, putcS]
      rw [hrun, hshift]
      have hm : ((out ++ [b0]).length + k) % 256 = (out.length + (k + 1)) % 256 := by
        simp only [List.length_append, List.length_cons, List.length_nil]
        omega
      rw [hm]
      simp [List.append_assoc]
    · rw [hshift]
      have : (out.length + (k + 1)) % 256 = ((out ++ [b0]).length + k) % 256 := by
        simp; omega
      rw [this]
      simpa [List.append_assoc] using hinv3

/-- Each appended byte of an overlap copy equals the byte `dist`
positions before it in the final output. -/
theorem overlapCopy_getD (out : List Nat) (dist cnt : Nat)
    (h1 : 0 < dist) (h3 : dist ≤ out.length) :
    ∀ k < cnt, (out ++ overlapCopy out dist cnt).getD (out.length + k) 0 =
      (out ++ overlapCopy out dist cnt).getD (out.length + k - dist) 0 := by
  intro k hk
  have hlenk : (out ++ overlapCopy out dist k).length = out.length + k := by
    simp [overlapCopy_length]
  have hsplit : out ++ overlapCopy out dist cnt =
      (out ++ overlapCopy out dist (k + 1)) ++
        (overlapCopy out dist cnt).drop (k + 1) := by
    rw [List.append_assoc]
    congr 1
    rw [← overlapCopy_take out dist cnt (k + 1) (by omega)]
    exact (List.take_append_drop _ _).symm
  have hlhs : (out ++ overlapCopy out dist cnt).getD (out.length + k) 0 =
      (out ++ overlapCopy out dist (k + 1)).getD (out.length + k) 0 := by
    rw [hsplit, List.getD_append]
    simp [overlapCopy_length]
  have hrhs : (out ++ overlapCopy out dist cnt).getD (out.length + k - dist) 0 =
      (out ++ overlapCopy out dist k).getD (out.length + k - dist) 0 := by
    have hc : out ++ overlapCopy out dist cnt =
        (out ++ overlapCopy out dist k) ++ (overlapCopy out dist cnt).drop k := by
      rw [List.append_assoc]
      congr 1
      rw [← overlapCopy_take out dist cnt k (by omega)]
      exact (List.take_append_drop _ _).symm
    rw [hc, List.getD_append]
    rw [hlenk]
    omega
  rw [hlhs, hrhs, overlapCopy, ← List.append_assoc, List.getD_append_right, hlenk]
  · simp [hlenk]
  · rw [hlenk]

/-- With distance 1 the copy replicates the byte preceding it. -/
theorem overlapCopy_one (out : List Nat) (h : 1 ≤ out.length) :
    ∀ cnt, overlapCopy out 1 cnt = List.replicate cnt (out.getD (out.length - 1) 0) := by
  intro cnt
  induction cnt with
  | zero => rfl
  | succ k ih =>
    rw [overlapCopy, ih, List.replicate_succ']
    congr 1
    rcases Nat.eq_zero_or_pos k with hk | hk
    · subst hk
      simp
    · congr 1
      rw [List.getD_append_right _ _ _ _ (by omega)]
      have h2 : out.length + k - 1 - out.length = k - 1 := by omega
      rw [h2, List.getD_eq_getElem _ _ (by simp only [List.length_replicate]; omega)]
      simp

/-- C6: processing a back-reference with bytes (off, len) appends
exactly len + 1 bytes, each copied from off + 1 positions behind the
current end of the output (appending before reading the next); with
off = 0 it appends len + 1 copies of the byte preceding it. -/
theorem c6_backref_semantics (map msk off lenB : Nat) (rest2 : List Nat)
    (buf : Nat → Nat) (mo : Nat) (out : List Nat)
    (hsel : map &&& msk ≠ 0) (hinv : DInv buf mo out) (hoff : off < 256)
    (hlen : off + 1 ≤ out.length) :
    ∃ buf2 mo2,
      decTok none map msk off (lenB :: rest2) buf mo out =
        .ok (buf2, mo2, out ++ overlapCopy out (off + 1) (lenB + 1), 1) ∧
      (overlapCopy out (off + 1) (lenB + 1)).length = lenB + 1 ∧
      (∀ k < lenB + 1,
        (out ++ overlapCopy out (off + 1) (lenB + 1)).getD (out.length + k) 0 =
          (out ++ overlapCopy out (off + 1) (lenB + 1)).getD
            (out.length + k - (off + 1)) 0) ∧
      (off = 0 → overlapCopy out (off + 1) (lenB + 1) =
        List.replicate (lenB + 1) (out.getD (out.length - 1) 0)) := by
  obtain ⟨buf2, hrun, -⟩ :=
    copyLoop_ok (off + 1) (by omega) (by omega) (lenB + 1) buf mo out hinv hlen
  refine ⟨buf2, (out.length + (lenB + 1)) % 256, ?_, ?_, ?_, ?_⟩
  · unfold decTok
    rw [if_pos hsel]
    simp only [hrun]
  · exact overlapCopy_length _ _ _
  · exact overlapCopy_getD out (off + 1) (lenB + 1) (by omega) hlen
  · intro h0
    subst h0
    exact overlapCopy_one out (by omega) (lenB + 1)

set_option maxRecDepth 40000 in
/-- Witness for C6: a concrete off = 0 back-reference over output [5]
produces two more copies of 5. -/
theorem c6_backref_semantics_witness :
    (1 &&& 1 ≠ 0) ∧ DInv (updN (fun _ => 0) 0 5) 1 [5] ∧ (0 : Nat) < 256 ∧
      (0 + 1 ≤ ([5] : List Nat).length) ∧
    ∃ buf2 mo2,
      decTok none 1 1 0 [1] (updN (fun _ => 0) 0 5) 1 [5] =
        .ok (buf2, mo2, [5] ++ overlapCopy [5] (0 + 1) (1 + 1), 1) ∧
      (overlapCopy [5] (0 + 1) (1 + 1)).length = 1 + 1 ∧
      (∀ k < 1 + 1,
        ([5] ++ overlapCopy [5] (0 + 1) (1 + 1)).getD (([5] : List Nat).length + k) 0 =
          ([5] ++ overlapCopy [5] (0 + 1) (1 + 1)).getD
            (([5] : List Nat).length + k - (0 + 1)) 0) ∧
      ((0 : Nat) = 0 → overlapCopy [5] (0 + 1) (1 + 1) =
        List.replicate (1 + 1) (([5] : List Nat).getD (([5] : List Nat).length - 1) 0)) :=
  ⟨by decide, by decide, by decide, by decide,
    c6_backref_semantics 1 1 0 1 [] (updN (fun _ => 0) 0 5) 1 [5]
      (by decide) (by decide) (by decide) (by decide)⟩

/-! ## C9: decoder error handling -/

/-- Modelled from the spec (section 6, wire format): walk the group
structure of a compressed stream.  `c` is the current control byte and
`k` the next token index inside the group, with `k = 8` meaning the next
byte starts a new group.  Returns `true` exactly when the stream ends
between complete tokens (a position where the decoder's next read may
hit end of stream cleanly). -/
def framedGo : Nat → Nat → List Nat → Bool
  | _, k, [] => decide (k ≠ 0)
  | c, k, b :: rest =>
    if 8 ≤ k then framedGo b 0 rest
    else if Nat.testBit c k then
      match rest with
      | [] => false
      | _ :: rest2 => framedGo c (k + 1) rest2
    else framedGo c (k + 1) rest

/-- Modelled from the spec: a compressed stream ends between complete
tokens. -/
def framed (src : List Nat) : Bool := framedGo 0 8 src

/-- The unbounded-sink copy loop never fails and appends `cnt` bytes. -/
theorem copyLoop_none : ∀ (cnt : Nat) (buf : Nat → Nat) (mo ml : Nat) (out : List Nat),
    ∃ buf2 mo2 out2, copyLoop none cnt buf mo ml out = .ok (buf2, mo2, out2) ∧
      out2.length = out.length + cnt := by
  intro cnt
  induction cnt with
  | zero => intro buf mo ml out; exact ⟨buf, mo, out, rfl, rfl⟩
  | succ k ih =>
    intro buf mo ml out
    obtain ⟨buf2, mo2, out2, hrun, hlen⟩ :=
      ih (updN buf mo (buf ((mo + 256 - ml) % 256))) ((mo + 1) % 256) ml
        (out ++ [buf ((mo + 256 - ml) % 256)])
    refine ⟨buf2, mo2, out2, ?_, ?_⟩
    · rw [copyLoop]
      simpa [putcS] using hrun
    · rw [hlen]
      simp
      omega

/-- A capacity-`k` sink makes the copy loop agree with the unbounded
run when it fits and fail with an I/O error otherwise. -/
theorem copyLoop_cap (k : Nat) :
    ∀ (cnt : Nat) (buf : Nat → Nat) (mo ml : Nat) (out : List Nat), out.length ≤ k →
    ∀ buf2 mo2 out2, copyLoop none cnt buf mo ml out = .ok (buf2, mo2, out2) →
      copyLoop (some k) cnt buf mo ml out =
        (if out2.length ≤ k then .ok (buf2, mo2, out2) else .error .ioError) := by
  intro cnt
  induction cnt with
  | zero =>
    intro buf mo ml out hk buf2 mo2 out2 hrun
    simp only [copyLoop, Except.ok.injEq, Prod.mk.injEq] at hrun ⊢
    obtain ⟨h1, h2, h3⟩ := hrun
    subst h1 h2 h3
    rw [if_pos hk]
  | succ cnt ih =>
    intro buf mo ml out hk buf2 mo2 out2 hrun
    obtain ⟨buf2n, mo2n, out2n, hrunn, hlenn⟩ :=
      copyLoop_none cnt (updN buf mo (buf ((mo + 256 - ml) % 256))) ((mo + 1) % 256) ml
        (out ++ [buf ((mo + 256 - ml) % 256)])
    rw [copyLoop] at hrun
    simp only [putcS] at hrun
    rw [hrunn] at hrun
    simp only [Except.ok.injEq, Prod.mk.injEq] at hrun
    obtain ⟨h1, h2, h3⟩ := hrun
    subst h1 h2 h3
    rcases Nat.lt_or_ge out.length k with hlt | hge
    · rw [copyLoop]
      simp only [putcS, if_pos hlt]
      rw [ih _ _ _ _ (by simp; omega) _ _ _ hrunn]
    · have hkeq : ¬ out.length < k := by omega
      rw [copyLoop]
      simp only [putcS, if_neg hkeq]
      have : ¬ out2n.length ≤ k := by
        rw [hlenn]
        simp
        omega
      rw [if_neg this]

/-- Unbounded-sink decTok: behavior by token kind. -/
theorem decTok_none (map msk c : Nat) (rest : List Nat) (buf : Nat → Nat)
    (mo : Nat) (out : List Nat) :
    (map &&& msk ≠ 0 → rest = [] →
      decTok none map msk c rest buf mo out = .error .truncated) ∧
    (map &&& msk ≠ 0 → ∀ n rest2, rest = n :: rest2 →
      ∃ buf2 mo2 out2,
        decTok none map msk c rest buf mo out = .ok (buf2, mo2, out2, 1) ∧
        out2.length = out.length + n + 1) ∧
    (map &&& msk = 0 →
      decTok none map msk c rest buf mo out =
        .ok (updN buf mo c, (mo + 1) % 256, out ++ [c], 0)) := by
  refine ⟨?_, ?_, ?_⟩
  · intro hsel hrest
    subst hrest
    unfold decTok
    rw [if_pos hsel]
  · intro hsel n rest2 hrest
    subst hrest
    obtain ⟨buf2, mo2, out2, hrun, hlen⟩ := copyLoop_none (n + 1) buf mo ((c + 1) % 256) out
    refine ⟨buf2, mo2, out2, ?_, by omega⟩
    unfold decTok
    rw [if_pos hsel]
    simp only [hrun]
  · intro hsel
    unfold decTok
    rw [if_neg (by simpa using hsel)]
    simp [putcS]

/-- Status of the unbounded-sink decoder loop against the framing walk:
`k` is the next token index (8 = next byte is a control byte), `T` the
number of tokens already processed. -/
theorem decLoop_framedGo :
    ∀ (fuel : Nat) (src : List Nat), src.length < fuel → (∀ b ∈ src, b < 256) →
    ∀ (k T map : Nat) (buf : Nat → Nat) (mo : Nat) (out : List Nat),
      1 ≤ k → k ≤ 8 → T % 8 = k % 8 → (k = 8 ∨ map < 256) →
      (if framedGo map k src
       then ∃ out2, decLoop none fuel src map (rolIter T MSK0) buf mo out = .ok out2
       else decLoop none fuel src map (rolIter T MSK0) buf mo out = .error .truncated) := by
  intro n
  induction n with
  | zero =>
    intro src hsrc _ k T map buf mo out hk1 hk8 hT hm
    exact absurd hsrc (by omega)
  | succ n ih =>
    intro src hsrc hbytes k T map buf mo out hk1 hk8 hT hm
    cases src with
    | nil =>
      rw [show framedGo map k [] = decide (k ≠ 0) from rfl, decide_eq_true (by omega)]
      exact ⟨out, rfl⟩
    | cons c rest =>
      have hc : c < 256 := hbytes c (by simp)
      have hrest : ∀ b ∈ rest, b < 256 := fun b hb => hbytes b (by simp [hb])
      have hmsk : rol (rolIter T MSK0) = rolIter (T + 1) MSK0 := rfl
      simp only [List.length_cons] at hsrc
      rcases Nat.eq_or_lt_of_le hk8 with hk | hk
      · -- k = 8: the byte c is a new control byte
        subst hk
        have hbit : (rolIter (T + 1) MSK0) % 2 = 1 := by
          rw [rolIter_low_bit]
          omega
        have hsel : (c &&& rolIter (T + 1) MSK0 ≠ 0) ↔ Nat.testBit c 0 := by
          rw [rolIter_mod_eight]
          rw [show (T + 1) % 8 = 1 from by omega]
          exact land_rolIter_testBit c hc 0 (by omega)
        rw [show framedGo map 8 (c :: rest) = framedGo c 0 rest from by
          rw [framedGo.eq_def]
          simp only
          rw [if_pos (by omega : (8 : Nat) ≤ 8)]]
        cases rest with
        | nil =>
          rw [show framedGo c 0 [] = decide ((0 : Nat) ≠ 0) from rfl,
            decide_eq_false (by omega)]
          rw [if_neg (by simp)]
          rw [decLoop.eq_def]
          simp only [hmsk, if_pos hbit]
        | cons c2 rest2 =>
          by_cases htb : Nat.testBit c 0
          · -- token 0 is a back reference
            have hsel2 : c &&& rolIter (T + 1) MSK0 ≠ 0 := hsel.mpr htb
            cases rest2 with
            | nil =>
              have hfg : framedGo c 0 [c2] = false := by
                rw [framedGo.eq_def]
                simp only
                rw [if_neg (by omega), if_pos htb]
              rw [hfg]
              have hdt := (decTok_none c (rolIter (T + 1) MSK0) c2 [] buf mo out).1
                hsel2 rfl
              rw [if_neg (by simp)]
              rw [decLoop.eq_def]
              simp only [hmsk, if_pos hbit, hdt]
            | cons n2 rest3 =>
              have hfg : framedGo c 0 (c2 :: n2 :: rest3) = framedGo c 1 rest3 := by
                rw [framedGo.eq_def]
                simp only
                rw [if_neg (by omega), if_pos htb]
              rw [hfg]
              obtain ⟨buf2, mo2, out2, hdt, -⟩ :=
                (decTok_none c (rolIter (T + 1) MSK0) c2 (n2 :: rest3) buf mo out).2.1
                  hsel2 n2 rest3 rfl
              have hih := ih rest3 (by simp at hsrc ⊢; omega)
                (fun b hb => hrest b (by simp [hb])) 1 (T + 1) c buf2 mo2 out2
                (by omega) (by omega) (by omega) (Or.inr hc)
              rw [decLoop.eq_def]
              simp only [hmsk, if_pos hbit, hdt, List.drop_succ_cons, List.drop_zero]
              exact hih
          · -- token 0 is a literal
            have hz : c &&& rolIter (T + 1) MSK0 = 0 := by
              by_contra hnz
              exact htb (hsel.mp hnz)
            have hdt := (decTok_none c (rolIter (T + 1) MSK0) c2 rest2 buf mo out).2.2 hz
            rw [show framedGo c 0 (c2 :: rest2) = framedGo c 1 rest2 from by
              rw [framedGo.eq_def]
              simp only
              rw [if_neg (by omega), if_neg htb]]
            have hih := ih rest2 (by simp at hsrc ⊢; omega)
              (fun b hb => hrest b (by simp [hb])) 1 (T + 1)
              c (updN buf mo c2) ((mo + 1) % 256) (out ++ [c2])
              (by omega) (by omega) (by omega) (Or.inr hc)
            rw [decLoop.eq_def]
            simp only [hmsk, if_pos hbit, hdt, List.drop_succ_cons, List.drop_zero]
            exact hih
      · -- 1 ≤ k ≤ 7: c is the first byte of token k of the current group
        have hmap : map < 256 := by
          rcases hm with h | h
          · omega
          · exact h
        have hbit : ¬ (rolIter (T + 1) MSK0) % 2 = 1 := by
          rw [rolIter_low_bit]
          omega
        have hsel : (map &&& rolIter (T + 1) MSK0 ≠ 0) ↔ Nat.testBit map k := by
          rw [rolIter_mod_eight]
          rw [show (T + 1) % 8 = (k + 1) % 8 from by omega, ← rolIter_mod_eight]
          exact land_rolIter_testBit map hmap k (by omega)
        by_cases htb : Nat.testBit map k
        · -- token k is a back reference
          have hsel2 : map &&& rolIter (T + 1) MSK0 ≠ 0 := hsel.mpr htb
          cases rest with
          | nil =>
            have hfg : framedGo map k [c] = false := by
              rw [framedGo.eq_def]
              simp only
              rw [if_neg (by omega), if_pos htb]
            rw [hfg]
            have hdt := (decTok_none map (rolIter (T + 1) MSK0) c [] buf mo out).1
              hsel2 rfl
            rw [if_neg (by simp)]
            rw [decLoop.eq_def]
            simp only [hmsk, if_neg hbit, hdt]
          | cons n2 rest2 =>
            have hfg : framedGo map k (c :: n2 :: rest2) = framedGo map (k + 1) rest2 := by
              rw [framedGo.eq_def]
              simp only
              rw [if_neg (by omega), if_pos htb]
            rw [hfg]
            obtain ⟨buf2, mo2, out2, hdt, -⟩ :=
              (decTok_none map (rolIter (T + 1) MSK0) c (n2 :: rest2) buf mo out).2.1
                hsel2 n2 rest2 rfl
            have hih := ih rest2 (by simp at hsrc ⊢; omega)
              (fun b hb => hrest b (by simp [hb])) (k + 1) (T + 1) map buf2 mo2 out2
              (by omega) (by omega) (by omega) (Or.inr hmap)
            rw [decLoop.eq_def]
            simp only [hmsk, if_neg hbit, hdt, List.drop_succ_cons, List.drop_zero]
            exact hih
        · -- token k is a literal
          have hz : map &&& rolIter (T + 1) MSK0 = 0 := by
            by_contra hnz
            exact htb (hsel.mp hnz)
          have hdt := (decTok_none map (rolIter (T + 1) MSK0) c rest buf mo out).2.2 hz
          rw [show framedGo map k (c :: rest) = framedGo map (k + 1) rest from by
            rw [framedGo.eq_def]
            simp only
            rw [if_neg (by omega), if_neg htb]]
          have hih := ih rest (by omega) hrest (k + 1) (T + 1)
            map (updN buf mo c) ((mo + 1) % 256) (out ++ [c])
            (by omega) (by omega) (by omega) (Or.inr hmap)
          rw [decLoop.eq_def]
          simp only [hmsk, if_neg hbit, hdt, List.drop_succ_cons, List.drop_zero]
          exact hih

/-- A token step grows the output, and with a capacity-limited sink it
agrees with the unbounded run when the result fits and fails with an
I/O error otherwise. -/
theorem decTok_cap (map msk c : Nat) (rest : List Nat) (buf : Nat → Nat)
    (mo : Nat) (out : List Nat) (buf2 : Nat → Nat) (mo2 : Nat) (out2 : List Nat)
    (d : Nat)
    (h : decTok none map msk c rest buf mo out = .ok (buf2, mo2, out2, d)) :
    out.length ≤ out2.length ∧
    ∀ kcap, out.length ≤ kcap →
      decTok (some kcap) map msk c rest buf mo out =
        (if out2.length ≤ kcap then .ok (buf2, mo2, out2, d) else .error .ioError) := by
  unfold decTok at h ⊢
  by_cases hsel : map &&& msk ≠ 0
  · rw [if_pos hsel] at h
    cases rest with
    | nil => simp at h
    | cons nh rest2 =>
      obtain ⟨bufn, mon, outn, hrunn, hlenn⟩ := copyLoop_none (nh + 1) buf mo ((c + 1) % 256) out
      simp only [hrunn, Except.ok.injEq, Prod.mk.injEq] at h
      obtain ⟨h1, h2, h3, h4⟩ := h
      subst h1 h2 h3 h4
      constructor
      · omega
      · intro kcap hk
        rw [if_pos hsel]
        simp only
        rw [copyLoop_cap kcap (nh + 1) buf mo ((c + 1) % 256) out hk _ _ _ hrunn]
        by_cases hfit : outn.length ≤ kcap
        · rw [if_pos hfit, if_pos hfit]
        · rw [if_neg hfit, if_neg hfit]
  · rw [if_neg hsel] at h
    simp only [putcS, Except.ok.injEq, Prod.mk.injEq] at h
    obtain ⟨h1, h2, h3, h4⟩ := h
    subst h1 h2 h3 h4
    constructor
    · simp
    · intro kcap hk
      rw [if_neg hsel]
      simp only [putcS]
      by_cases hfit : out.length < kcap
      · rw [if_pos hfit, if_pos (by simp; omega)]
      · rw [if_neg hfit, if_neg (by simp; omega)]

/-- Relation between the decoder with an unbounded sink and with a
capacity-limited sink: a successful unbounded run either fits or turns
into an I/O error at the write that exceeds the capacity. -/
theorem decLoop_cap :
    ∀ (fuel : Nat) (src : List Nat), src.length < fuel →
    ∀ (map msk : Nat) (buf : Nat → Nat) (mo : Nat) (out out2 : List Nat),
      decLoop none fuel src map msk buf mo out = .ok out2 →
      out.length ≤ out2.length ∧
      ∀ kcap, out.length ≤ kcap →
        decLoop (some kcap) fuel src map msk buf mo out =
          (if out2.length ≤ kcap then .ok out2 else .error .ioError) := by
  intro n
  induction n with
  | zero =>
    intro src hsrc map msk buf mo out out2 h
    exact absurd hsrc (by omega)
  | succ n ih =>
    intro src hsrc map msk buf mo out out2 h
    cases src with
    | nil =>
      simp only [decLoop, Except.ok.injEq] at h
      subst h
      exact ⟨le_refl _, fun kcap hk => by simp only [decLoop]; rw [if_pos hk]⟩
    | cons c rest =>
      simp only [List.length_cons] at hsrc
      rw [decLoop.eq_def] at h
      simp only at h
      by_cases hbit : rol msk % 2 = 1
      · rw [if_pos hbit] at h
        cases rest with
        | nil => simp at h
        | cons c2 rest2 =>
          simp only at h
          cases hdt : decTok none c (rol msk) c2 rest2 buf mo out with
          | error e => rw [hdt] at h; simp at h
          | ok r =>
            obtain ⟨bufm, mom, outm, dm⟩ := r
            rw [hdt] at h
            simp only at h
            obtain ⟨hmono1, hcap1⟩ := decTok_cap _ _ _ _ _ _ _ _ _ _ _ hdt
            obtain ⟨hmono2, hcap2⟩ := ih (rest2.drop dm)
              (by simp only [List.length_drop, List.length_cons] at *; omega)
              c (rol msk) bufm mom outm out2 h
            refine ⟨by omega, ?_⟩
            intro kcap hk
            rw [decLoop.eq_def]
            simp only [if_pos hbit]
            rw [hcap1 kcap hk]
            by_cases hfit : outm.length ≤ kcap
            · rw [if_pos hfit]
              simp only
              exact hcap2 kcap hfit
            · rw [if_neg hfit, if_neg (by omega)]
      · rw [if_neg hbit] at h
        cases hdt : decTok none map (rol msk) c rest buf mo out with
        | error e => rw [hdt] at h; simp at h
        | ok r =>
          obtain ⟨bufm, mom, outm, dm⟩ := r
          rw [hdt] at h
          simp only at h
          obtain ⟨hmono1, hcap1⟩ := decTok_cap _ _ _ _ _ _ _ _ _ _ _ hdt
          obtain ⟨hmono2, hcap2⟩ := ih (rest.drop dm)
            (by simp only [List.length_drop] at *; omega)
            map (rol msk) bufm mom outm out2 h
          refine ⟨by omega, ?_⟩
          intro kcap hk
          rw [decLoop.eq_def]
          simp only [if_neg hbit]
          rw [hcap1 kcap hk]
          by_cases hfit : outm.length ≤ kcap
          · rw [if_pos hfit]
            simp only
            exact hcap2 kcap hfit
          · rw [if_neg hfit, if_neg (by omega)]

/-- The framing walk at a group boundary ignores the stale control
byte. -/
theorem framedGo_eight (a b : Nat) (src : List Nat) :
    framedGo a 8 src = framedGo b 8 src := by
  cases src with
  | nil => rfl
  | cons c rest =>
    rw [framedGo.eq_def, framedGo.eq_def]
    simp only
    rw [if_pos (by omega : (8 : Nat) ≤ 8), if_pos (by omega : (8 : Nat) ≤ 8)]

/-- C9: with byte-valued input, decompress succeeds exactly when the
source ends between complete tokens; a source ending immediately after
a control byte or inside a back reference yields the truncated-input
error; and a sink that fails before accepting the whole output turns a
successful run into an I/O error. -/
theorem c9_decoder_errors (src : List Nat) (hsrc : ∀ b ∈ src, b < 256)
    (buf0 : Nat → Nat) (map0 : Nat) :
    ((∃ out, decompress none buf0 map0 src = .ok out) ↔ framed src = true) ∧
    (framed src = false → decompress none buf0 map0 src = .error .truncated) ∧
    (∀ out kcap, decompress none buf0 map0 src = .ok out → kcap < out.length →
      decompress (some kcap) buf0 map0 src = .error .ioError) := by
  have hmain := decLoop_framedGo (src.length + 1) src (by omega) hsrc 8 0 map0 buf0 0 []
    (by omega) (by omega) (by omega) (Or.inl rfl)
  rw [show rolIter 0 MSK0 = MSK0 from rfl] at hmain
  rw [show framedGo map0 8 src = framed src from framedGo_eight map0 0 src] at hmain
  refine ⟨?_, ?_, ?_⟩
  · constructor
    · intro hok
      by_cases hfr : framed src = true
      · exact hfr
      · rw [if_neg (by simp [hfr])] at hmain
        obtain ⟨out, hout⟩ := hok
        unfold decompress at hout
        rw [hmain] at hout
        exact absurd hout (by simp)
    · intro hfr
      rw [if_pos (by simp [hfr])] at hmain
      exact hmain
  · intro hfr
    rw [if_neg (by simp [hfr])] at hmain
    exact hmain
  · intro out kcap hok hkcap
    unfold decompress at hok ⊢
    obtain ⟨-, hcap⟩ := decLoop_cap (src.length + 1) src (by omega) map0 MSK0 buf0 0 [] out hok
    rw [hcap kcap (by simp)]
    rw [if_neg (by omega)]

/-- Witness for C9 at the concrete stream [0x00, 0x41] (one literal). -/
theorem c9_decoder_errors_witness :
    ((∃ out, decompress none (fun _ => 0) 0 [0, 65] = .ok out) ↔ framed [0, 65] = true) ∧
    (framed [0, 65] = false → decompress none (fun _ => 0) 0 [0, 65] = .error .truncated) ∧
    (∀ out kcap, decompress none (fun _ => 0) 0 [0, 65] = .ok out → kcap < out.length →
      decompress (some kcap) (fun _ => 0) 0 [0, 65] = .error .ioError) :=
  c9_decoder_errors [0, 65] (by decide) (fun _ => 0) 0

/-! ## Compressor output structure: groups and control bytes -/

/-- Pure token semantics: sequentially decode a token list on top of an
accumulated output (literal = one byte; back reference with stored
offset o and stored length l = overlap copy of l + 1 bytes from
distance o + 1). -/
def tokOut : List Nat → List Mtch → List Nat
  | acc, [] => acc
  | acc, t :: ts =>
    if t.l = 0 then tokOut (acc ++ [t.v]) ts
    else tokOut (acc ++ overlapCopy acc (t.o + 1) (t.l + 1)) ts

/-- The control word accumulated by the encoder for the tokens of one
group, starting at in-group index `k`: the OR of the rotated 32-bit
masks of the back-reference tokens. -/
def ctrlAux : Nat → List Mtch → Nat
  | _, [] => 0
  | k, t :: ts => (if t.l ≠ 0 then rolIter (k + 1) MSK0 else 0) ||| ctrlAux (k + 1) ts

/-- The control word of a whole group. -/
def ctrlOf (g : List Mtch) : Nat := ctrlAux 0 g

/-- Serialization of one group: its control byte then its token bytes. -/
def serializeGroup (g : Nat × List Mtch) : List Nat := encode g.2 g.1

/-- Serialization of a group list. -/
def serializeGroups : List (Nat × List Mtch) → List Nat
  | [] => []
  | g :: gs => serializeGroup g ++ serializeGroups gs

/-- Grouping of a token stream into control-byte groups of eight. -/
def groupTok : List Mtch → List (Nat × List Mtch)
  | [] => []
  | t :: ts =>
    (ctrlOf ((t :: ts).take 8), (t :: ts).take 8) :: groupTok ((t :: ts).drop 8)
termination_by ts => ts.length
decreasing_by
  simp only [List.drop_succ_cons, List.length_cons, List.length_drop]
  omega

theorem ctrlAux_append (t : Mtch) :
    ∀ (g : List Mtch) (k : Nat),
      ctrlAux k (g ++ [t]) =
        ctrlAux k g ||| (if t.l ≠ 0 then rolIter (k + g.length + 1) MSK0 else 0) := by
  intro g
  induction g with
  | nil =>
    intro k
    simp [ctrlAux, Nat.lor_comm]
  | cons t0 g ih =>
    intro k
    have e1 : ctrlAux k ((t0 :: g) ++ [t]) =
        (if t0.l ≠ 0 then rolIter (k + 1) MSK0 else 0) ||| ctrlAux (k + 1) (g ++ [t]) := rfl
    have e2 : ctrlAux k (t0 :: g) =
        (if t0.l ≠ 0 then rolIter (k + 1) MSK0 else 0) ||| ctrlAux (k + 1) g := rfl
    rw [e1, e2, ih (k + 1)]
    rw [show k + 1 + g.length + 1 = k + (t0 :: g).length + 1 from by
      simp only [List.length_cons]
      omega]
    rw [Nat.lor_assoc]

/-- Bit `i` of the mask used for in-group token `k` (both below 8). -/
theorem rolIter_testBit_low :
    ∀ k, k < 8 → ∀ i, i < 8 →
      (Nat.testBit (rolIter (k + 1) MSK0) i ↔ i = k) := by
  decide

/-- Low byte of a group's control word: bit `i` is set exactly when
token `i` exists and is a back reference. -/
theorem ctrlAux_testBit :
    ∀ (g : List Mtch) (k : Nat), k + g.length ≤ 8 → ∀ i, i < 8 →
      (Nat.testBit (ctrlAux k g) i ↔
        ∃ j, ∃ hj : j < g.length, k + j = i ∧ (g.get ⟨j, hj⟩).l ≠ 0) := by
  intro g
  induction g with
  | nil =>
    intro k hk i hi
    simp [ctrlAux]
  | cons t g ih =>
    intro k hk i hi
    simp only [ctrlAux, Nat.testBit_lor]
    constructor
    · intro h
      rcases Bool.or_eq_true_iff.mp h with h1 | h1
      · by_cases hb : t.l ≠ 0
        · rw [if_pos hb] at h1
          have hik : i = k := (rolIter_testBit_low k (by simp at hk; omega) i hi).mp h1
          exact ⟨0, by simp, by omega, by simpa using hb⟩
        · rw [if_neg hb] at h1
          simp at h1
      · obtain ⟨j, hj, hkj, hl⟩ :=
          (ih (k + 1) (by simp at hk ⊢; omega) i hi).mp h1
        exact ⟨j + 1, by simp; omega, by omega, by simpa using hl⟩
    · rintro ⟨j, hj, hkj, hl⟩
      cases j with
      | zero =>
        apply Bool.or_eq_true_iff.mpr
        left
        rw [if_pos (by simpa using hl)]
        exact (rolIter_testBit_low k (by simp at hk; omega) i hi).mpr (by omega)
      | succ j =>
        apply Bool.or_eq_true_iff.mpr
        right
        refine (ih (k + 1) (by simp at hk ⊢; omega) i hi).mpr ⟨j, by simp at hj; omega, by omega, ?_⟩
        simpa using hl

/-- C2-style statement of the control byte of one group: bit `k` of the
emitted control byte (the control word mod 256) tags token `k`. -/
theorem ctrlOf_byte_testBit (g : List Mtch) (hg : g.length ≤ 8) :
    ∀ k, ∀ hk : k < g.length,
      Nat.testBit (ctrlOf g % 256) k = decide ((g.get ⟨k, hk⟩).l ≠ 0) := by
  intro k hk
  have h256 : (256 : Nat) = 2 ^ 8 := by norm_num
  rw [h256, Nat.testBit_mod_two_pow]
  have hk8 : k < 8 := by omega
  have := ctrlAux_testBit g 0 (by omega) k hk8
  unfold ctrlOf
  by_cases hb : (g.get ⟨k, hk⟩).l ≠ 0
  · have htrue : Nat.testBit (ctrlAux 0 g) k = true := this.mpr ⟨k, hk, by omega, hb⟩
    rw [decide_eq_true hk8, htrue, Bool.true_and]
    exact (decide_eq_true hb).symm
  · have hfalse : Nat.testBit (ctrlAux 0 g) k = false := by
      by_contra hcon
      obtain ⟨j, hj, hkj, hl⟩ := this.mp (by simpa using hcon)
      have hjk : j = k := by omega
      subst hjk
      exact hb hl
    rw [decide_eq_true hk8, hfalse, Bool.true_and]
    exact (decide_eq_false hb).symm

/-- The token trace of the drain loop: the tokens `match` produces from
a window until the lookahead is empty. -/
inductive DrainT : Wnd → List Mtch → Prop
  | done (w : Wnd) : ring_size w.lookahead = 0 → DrainT w []
  | step (w : Wnd) (t : Mtch) (w2 : Wnd) (ts : List Mtch) :
      ring_size w.lookahead ≠ 0 → matchLz w = some (t, w2) → DrainT w2 ts →
      DrainT w (t :: ts)

/-- The token trace of the whole compression run, interleaving lookahead
refills with `match` steps. -/
inductive MainT : Wnd → List Nat → List Mtch → Prop
  | eof (w : Wnd) (src : List Nat) (w2 : Wnd) (src2 : List Nat) (ts : List Mtch) :
      wnd_read w src = (w2, src2, true) → DrainT w2 ts → MainT w src ts
  | step (w : Wnd) (src : List Nat) (w2 : Wnd) (src2 : List Nat) (t : Mtch)
      (w3 : Wnd) (ts : List Mtch) :
      wnd_read w src = (w2, src2, false) → matchLz w2 = some (t, w3) →
      MainT w3 src2 ts → MainT w src (t :: ts)

/-- The encoder-context invariant after `T` helper calls: the mask has
been rotated `T` times, the pending group holds the tokens since the
last group boundary, and the control word is their OR of masks. -/
def CtxC (T : Nat) (ctx : Ctx) : Prop :=
  ctx.msk = rolIter T MSK0 ∧
  ctx.g.length = (if T = 0 then 0 else (T - 1) % 8 + 1) ∧
  ctx.c = ctrlOf ctx.g

/-- One helper call never stores out of bounds, and on success yields
the `match` token, preserves the invariant, and either extends the
pending group or flushes a full group of eight. -/
theorem compress_helper_struct (T : Nat) (ctx : Ctx) (h : CtxC T ctx) :
    compress_helper ctx ≠ .error .oob ∧
    ∀ ctx2 bytes, compress_helper ctx = .ok (ctx2, bytes) →
      ∃ t w2, matchLz ctx.w = some (t, w2) ∧ ctx2.w = w2 ∧ CtxC (T + 1) ctx2 ∧
        ((ctx2.g = ctx.g ++ [t] ∧ bytes = []) ∨
         (ctx.g.length = 8 ∧ ctx2.g = [t] ∧ bytes = encode ctx.g ctx.c)) := by
  obtain ⟨hmsk, hlen, hc⟩ := h
  have hmsk2 : rol ctx.msk = rolIter (T + 1) MSK0 := by rw [hmsk]; rfl
  have hlen8 : ctx.g.length ≤ 8 := by
    rw [hlen]
    split <;> omega
  cases hml : matchLz ctx.w with
  | none =>
    constructor
    · simp only [compress_helper, hml]
      simp
    · intro ctx2 bytes heq
      simp only [compress_helper, hml] at heq
      exact absurd heq (by simp)
  | some pr =>
    obtain ⟨t, w2⟩ := pr
    by_cases hbit : (rolIter (T + 1) MSK0) % 2 = 1
    · -- group boundary
      have hT8 : T % 8 = 0 := by
        have := (rolIter_low_bit (T + 1)).mp hbit
        omega
      have hms1 : rolIter (T + 1) MSK0 = rolIter 1 MSK0 := by
        rw [rolIter_mod_eight]
        congr 1
        omega
      constructor
      · simp only [compress_helper, hml, hmsk2]
        rw [if_pos hbit, if_pos hbit]
        rw [if_pos (by simp : ([] : List Mtch).length < 8)]
        simp
      · intro ctx2 bytes heq
        simp only [compress_helper, hml, hmsk2] at heq
        rw [if_pos hbit, if_pos hbit] at heq
        rw [if_pos (by simp : ([] : List Mtch).length < 8)] at heq
        simp only [Except.ok.injEq, Prod.mk.injEq] at heq
        obtain ⟨h1, h2⟩ := heq
        subst h1 h2
        refine ⟨t, w2, rfl, rfl, ⟨rfl, ?_, ?_⟩, ?_⟩
        · simp only [List.nil_append, List.length_cons, List.length_nil]
          split <;> omega
        · show (if t.l ≠ 0 then 0 ||| rolIter (T + 1) MSK0 else 0) = ctrlOf ([] ++ [t])
          have hct : ctrlOf ([] ++ [t]) =
              (if t.l ≠ 0 then rolIter (0 + 1) MSK0 else 0) ||| 0 := rfl
          rw [hct, Nat.or_zero _]
          by_cases htl : t.l ≠ 0
          · rw [if_pos htl, if_pos htl, Nat.zero_or _, hms1]
          · rw [if_neg htl, if_neg htl]
        · by_cases hT0 : T = 0
          · left
            have hg0 : ctx.g.length = 0 := by rw [hlen, if_pos hT0]
            have hgnil : ctx.g = [] := List.length_eq_zero.mp hg0
            constructor
            · simp [hgnil]
            · rw [if_neg (by simp [hgnil])]
          · right
            have hg8 : ctx.g.length = 8 := by
              rw [hlen, if_neg hT0]
              omega
            refine ⟨hg8, by simp, ?_⟩
            rw [if_pos ⟨hbit, by intro hcon; rw [hcon] at hg8; simp at hg8⟩]
    · -- inside a group
      have hT8 : T % 8 ≠ 0 := by
        have := rolIter_low_bit (T + 1)
        omega
      have hT0 : T ≠ 0 := by
        intro hcon
        subst hcon
        simp at hT8
      have hglen : ctx.g.length = T % 8 := by
        rw [hlen, if_neg hT0]
        omega
      have hglt : ctx.g.length < 8 := by
        have : T % 8 < 8 := Nat.mod_lt _ (by norm_num)
        omega
      have hms1 : rolIter (T + 1) MSK0 = rolIter (ctx.g.length + 1) MSK0 := by
        rw [rolIter_mod_eight, rolIter_mod_eight (ctx.g.length + 1)]
        congr 1
        omega
      have hnand : ¬((rolIter (T + 1) MSK0) % 2 = 1 ∧ ctx.g ≠ []) := by
        intro hcon
        exact hbit hcon.1
      constructor
      · simp only [compress_helper, hml, hmsk2]
        simp only [if_neg hbit, if_neg hnand, if_pos hglt]
        simp
      · intro ctx2 bytes heq
        simp only [compress_helper, hml, hmsk2] at heq
        simp only [if_neg hbit, if_neg hnand, if_pos hglt] at heq
        simp only [Except.ok.injEq, Prod.mk.injEq] at heq
        obtain ⟨h1, h2⟩ := heq
        subst h1 h2
        refine ⟨t, w2, rfl, rfl, ⟨rfl, ?_, ?_⟩, Or.inl ⟨rfl, rfl⟩⟩
        · simp only [List.length_append, List.length_cons, List.length_nil]
          rw [hlen, if_neg hT0]
          split <;> omega
        · show (if t.l ≠ 0 then ctx.c ||| rolIter (T + 1) MSK0 else ctx.c) =
            ctrlOf (ctx.g ++ [t])
          unfold ctrlOf
          rw [ctrlAux_append t ctx.g 0, hms1]
          by_cases htl : t.l ≠ 0
          · rw [if_pos htl, if_pos htl, hc]
            show ctrlOf ctx.g ||| rolIter (ctx.g.length + 1) MSK0 =
              ctrlAux 0 ctx.g ||| rolIter (0 + ctx.g.length + 1) MSK0
            rw [Nat.zero_add]
            rfl
          · rw [if_neg htl, if_neg htl, hc]
            show ctrlOf ctx.g = ctrlAux 0 ctx.g ||| 0
            rw [Nat.or_zero _]
            rfl

theorem groupTok_eight (g ts : List Mtch) (hg : g.length = 8) :
    groupTok (g ++ ts) = (ctrlOf g, g) :: groupTok ts := by
  cases g with
  | nil => simp at hg
  | cons t g2 =>
    have htake : ((t :: g2) ++ ts).take 8 = t :: g2 := by
      rw [← hg]
      exact List.take_left _ _
    have hdrop : ((t :: g2) ++ ts).drop 8 = ts := by
      rw [← hg]
      exact List.drop_left _ _
    rw [List.cons_append, groupTok.eq_def]
    simp only [← List.cons_append, htake, hdrop]

theorem groupTok_small (g : List Mtch) (hne : g ≠ []) (hg : g.length ≤ 8) :
    groupTok g = [(ctrlOf g, g)] := by
  cases g with
  | nil => exact absurd rfl hne
  | cons t g2 =>
    rw [groupTok.eq_def]
    simp only [List.take_of_length_le hg, List.drop_eq_nil_of_le hg]
    rw [groupTok.eq_def]

/-- Structure of the drain loop: it never stores out of bounds, and a
successful run appends the serialization of the grouping of the pending
tokens followed by the drain trace of the window. -/
theorem compressDrain_struct :
    ∀ (fuel T : Nat) (ctx : Ctx) (out : List Nat), CtxC T ctx →
      (compressDrain fuel ctx out ≠ .error .oob) ∧
      (∀ res, compressDrain fuel ctx out = .ok res →
        ∃ ts, DrainT ctx.w ts ∧
          res = out ++ serializeGroups (groupTok (ctx.g ++ ts))) := by
  intro fuel
  induction fuel with
  | zero =>
    intro T ctx out h
    constructor
    · simp [compressDrain]
    · intro res h2
      simp [compressDrain] at h2
  | succ fuel ih =>
    intro T ctx out h
    by_cases hlook : ring_size ctx.w.lookahead = 0
    · constructor
      · simp only [compressDrain, if_pos hlook]
        split <;> simp
      · intro res h2
        simp only [compressDrain, if_pos hlook] at h2
        refine ⟨[], DrainT.done _ hlook, ?_⟩
        rw [List.append_nil]
        by_cases hg : ctx.g = []
        · rw [if_pos hg] at h2
          simp only [Except.ok.injEq] at h2
          subst h2
          rw [hg]
          simp [groupTok, serializeGroups]
        · rw [if_neg hg] at h2
          simp only [Except.ok.injEq] at h2
          subst h2
          have hlen8 : ctx.g.length ≤ 8 := by
            rw [h.2.1]
            split <;> omega
          rw [groupTok_small ctx.g hg hlen8]
          show out ++ encode ctx.g ctx.c =
            out ++ (serializeGroup (ctrlOf ctx.g, ctx.g) ++ serializeGroups [])
          rw [show serializeGroups [] = [] from rfl, List.append_nil]
          show out ++ encode ctx.g ctx.c = out ++ encode ctx.g (ctrlOf ctx.g)
          rw [h.2.2]
    · cases hh : compress_helper ctx with
      | error e =>
        have hoob := (compress_helper_struct T ctx h).1
        constructor
        · simp only [compressDrain, if_neg hlook, hh]
          intro hcon
          simp only [Except.error.injEq] at hcon
          subst hcon
          exact hoob hh
        · intro res h2
          simp only [compressDrain, if_neg hlook, hh] at h2
          exact absurd h2 (by simp)
      | ok pr =>
        obtain ⟨ctx2, bytes⟩ := pr
        obtain ⟨t, w2, hml, hw, hinv2, hdisj⟩ :=
          (compress_helper_struct T ctx h).2 ctx2 bytes hh
        obtain ⟨ihoob, ihok⟩ := ih (T + 1) ctx2 (out ++ bytes) hinv2
        constructor
        · simp only [compressDrain, if_neg hlook, hh]
          exact ihoob
        · intro res h2
          simp only [compressDrain, if_neg hlook, hh] at h2
          obtain ⟨ts, hts, hres⟩ := ihok res h2
          rw [hw] at hts
          refine ⟨t :: ts, DrainT.step ctx.w t w2 ts hlook hml hts, ?_⟩
          rcases hdisj with ⟨hg2, hbytes⟩ | ⟨hg8, hg2, hbytes⟩
          · rw [hres, hbytes, hg2, List.append_nil]
            rw [show (ctx.g ++ [t]) ++ ts = ctx.g ++ (t :: ts) from by
              rw [List.append_assoc]
              rfl]
          · rw [hres, hbytes, hg2]
            rw [groupTok_eight ctx.g (t :: ts) hg8]
            rw [show serializeGroups ((ctrlOf ctx.g, ctx.g) :: groupTok (t :: ts)) =
              encode ctx.g (ctrlOf ctx.g) ++ serializeGroups (groupTok (t :: ts)) from rfl]
            rw [← h.2.2, List.singleton_append, List.append_assoc]

/-- Structure of the main compression loop: no out-of-bounds store, and
a successful run serializes the grouping of the main trace. -/
theorem compressMain_struct :
    ∀ (fuel T : Nat) (ctx : Ctx) (src : List Nat) (out : List Nat), CtxC T ctx →
      (compressMain fuel ctx src out ≠ .error .oob) ∧
      (∀ res, compressMain fuel ctx src out = .ok res →
        ∃ ts, MainT ctx.w src ts ∧
          res = out ++ serializeGroups (groupTok (ctx.g ++ ts))) := by
  intro fuel
  induction fuel with
  | zero =>
    intro T ctx src out h
    constructor
    · simp [compressMain]
    · intro res h2
      simp [compressMain] at h2
  | succ fuel ih =>
    intro T ctx src out h
    rcases hread : wnd_read ctx.w src with ⟨w2, src2, eof⟩
    have hinv2 : CtxC T { ctx with w := w2 } := ⟨h.1, h.2.1, h.2.2⟩
    cases eof with
    | true =>
      obtain ⟨doob, dok⟩ :=
        compressDrain_struct (ring_size w2.lookahead + 1) T { ctx with w := w2 } out hinv2
      constructor
      · simp only [compressMain, hread]
        exact doob
      · intro res h2
        simp only [compressMain, hread] at h2
        obtain ⟨ts, hts, hres⟩ := dok res h2
        exact ⟨ts, MainT.eof ctx.w src w2 src2 ts hread hts, hres⟩
    | false =>
      cases hh : compress_helper { ctx with w := w2 } with
      | error e =>
        have hoob := (compress_helper_struct T { ctx with w := w2 } hinv2).1
        constructor
        · simp only [compressMain, hread, hh, Bool.false_eq_true, if_false]
          intro hcon
          simp only [Except.error.injEq] at hcon
          subst hcon
          exact hoob hh
        · intro res h2
          simp only [compressMain, hread, hh, Bool.false_eq_true, if_false] at h2
          exact absurd h2 (by simp)
      | ok pr =>
        obtain ⟨ctx2, bytes⟩ := pr
        obtain ⟨t, w3, hml, hw, hinv3, hdisj⟩ :=
          (compress_helper_struct T { ctx with w := w2 } hinv2).2 ctx2 bytes hh
        obtain ⟨ihoob, ihok⟩ := ih (T + 1) ctx2 src2 (out ++ bytes) hinv3
        constructor
        · simp only [compressMain, hread, hh, Bool.false_eq_true, if_false]
          exact ihoob
        · intro res h2
          simp only [compressMain, hread, hh, Bool.false_eq_true, if_false] at h2
          obtain ⟨ts, hts, hres⟩ := ihok res h2
          rw [hw] at hts
          refine ⟨t :: ts, MainT.step ctx.w src w2 src2 t w3 ts hread hml hts, ?_⟩
          rcases hdisj with ⟨hg2, hbytes⟩ | ⟨hg8, hg2, hbytes⟩
          · rw [hres, hbytes, hg2, List.append_nil]
            rw [show ({ ctx with w := w2 } : Ctx).g ++ [t] ++ ts =
              ctx.g ++ (t :: ts) from by
              rw [List.append_assoc]
              rfl]
          · rw [hres, hbytes, hg2]
            rw [show ({ ctx with w := w2 } : Ctx).g = ctx.g from rfl] at hg8 ⊢
            rw [groupTok_eight ctx.g (t :: ts) hg8]
            rw [show serializeGroups ((ctrlOf ctx.g, ctx.g) :: groupTok (t :: ts)) =
              encode ctx.g (ctrlOf ctx.g) ++ serializeGroups (groupTok (t :: ts)) from rfl]
            rw [show ({ ctx with w := w2 } : Ctx).c = ctx.c from rfl, ← h.2.2,
              List.singleton_append, List.append_assoc]

/-- Structure of `compress`: it never stores out of bounds in the group
array, and a successful run is the serialization of the grouping of the
whole token trace. -/
theorem compress_struct (bf0 : Nat → Nat) (src : List Nat) :
    (compress bf0 src ≠ .error .oob) ∧
    (∀ res, compress bf0 src = .ok res →
      ∃ ts, MainT (wnd_init bf0) src ts ∧ res = serializeGroups (groupTok ts)) := by
  have h0 : CtxC 0 (ctx_init bf0) := ⟨rfl, rfl, rfl⟩
  obtain ⟨hoob, hok⟩ :=
    compressMain_struct (src.length + 1) 0 (ctx_init bf0) src [] h0
  refine ⟨hoob, ?_⟩
  intro res hres
  obtain ⟨ts, hts, heq⟩ := hok res hres
  exact ⟨ts, hts, by simpa using heq⟩

theorem groupTok_mem :
    ∀ (n : Nat) (ts : List Mtch), ts.length ≤ n →
      ∀ gp ∈ groupTok ts, gp.1 = ctrlOf gp.2 ∧ 1 ≤ gp.2.length ∧ gp.2.length ≤ 8 := by
  intro n
  induction n with
  | zero =>
    intro ts hts gp hgp
    have : ts = [] := List.length_eq_zero.mp (by omega)
    subst this
    simp [groupTok] at hgp
  | succ n ih =>
    intro ts hts gp hgp
    cases ts with
    | nil => simp [groupTok] at hgp
    | cons t ts2 =>
      rw [groupTok.eq_def] at hgp
      simp only [List.mem_cons] at hgp
      rcases hgp with hgp | hgp
      · subst hgp
        refine ⟨rfl, ?_, ?_⟩ <;> simp [List.length_take] <;> omega
      · exact ih ((t :: ts2).drop 8)
          (by simp only [List.length_drop, List.length_cons] at *; omega) gp hgp

/-- C10: the rotated 32-bit mask reaches bit 0 exactly on every eighth
helper call; the 8-entry group array is never indexed out of bounds; and
every emitted control byte heads a group of between 1 and 8 tokens. -/
theorem c10_group_bound :
    (∀ k, (rolIter k MSK0) % 2 = 1 ↔ k % 8 = 1) ∧
    (∀ (bf0 : Nat → Nat) (src : List Nat), compress bf0 src ≠ .error .oob) ∧
    (∀ (bf0 : Nat → Nat) (src : List Nat) (res : List Nat),
      compress bf0 src = .ok res →
      ∃ ts, res = serializeGroups (groupTok ts) ∧
        ∀ gp ∈ groupTok ts, 1 ≤ gp.2.length ∧ gp.2.length ≤ 8) := by
  refine ⟨rolIter_low_bit, ?_, ?_⟩
  · intro bf0 src
    exact (compress_struct bf0 src).1
  · intro bf0 src res hres
    obtain ⟨ts, -, heq⟩ := (compress_struct bf0 src).2 res hres
    refine ⟨ts, heq, ?_⟩
    intro gp hgp
    exact (groupTok_mem ts.length ts (le_refl _) gp hgp).2

/-- Witness for C10 at the single-byte input [0x41]. -/
theorem c10_group_bound_witness :
    ∃ ts, ([0, 65] : List Nat) = serializeGroups (groupTok ts) ∧
      ∀ gp ∈ groupTok ts, 1 ≤ gp.2.length ∧ gp.2.length ≤ 8 :=
  c10_group_bound.2.2 (fun _ => 0) [65] [0, 65] rfl

/-- C2 (corrected bit order): the mask used while storing token k of a
group has low byte 2^k, so bit k — not bit 7 - k — of the emitted
control byte tags token k as a back reference, and the decoder tests
the same bit k of the control byte for token k. -/
theorem c2_bit_order :
    (∀ k, k < 8 → (rolIter (k + 1) MSK0) % 256 = 2 ^ k) ∧
    (∀ (bf0 : Nat → Nat) (src : List Nat) (res : List Nat),
      compress bf0 src = .ok res →
      ∃ ts, res = serializeGroups (groupTok ts) ∧
        ∀ gp ∈ groupTok ts, ∀ k, ∀ hk : k < gp.2.length,
          Nat.testBit (gp.1 % 256) k = decide ((gp.2.get ⟨k, hk⟩).l ≠ 0)) ∧
    (∀ map, map < 256 → ∀ k, k < 8 →
      ((map &&& rolIter (k + 1) MSK0 ≠ 0) ↔ Nat.testBit map k)) := by
  refine ⟨rolIter_low_byte, ?_, land_rolIter_testBit⟩
  intro bf0 src res hres
  obtain ⟨ts, -, heq⟩ := (compress_struct bf0 src).2 res hres
  refine ⟨ts, heq, ?_⟩
  intro gp hgp k hk
  obtain ⟨hctrl, -, hle⟩ := groupTok_mem ts.length ts (le_refl _) gp hgp
  rw [hctrl]
  exact ctrlOf_byte_testBit gp.2 hle k hk

/-- Witness for C2 at the single-byte input [0x41]. -/
theorem c2_bit_order_witness :
    ∃ ts, ([0, 65] : List Nat) = serializeGroups (groupTok ts) ∧
      ∀ gp ∈ groupTok ts, ∀ k, ∀ hk : k < gp.2.length,
        Nat.testBit (gp.1 % 256) k = decide ((gp.2.get ⟨k, hk⟩).l ≠ 0) :=
  c2_bit_order.2.1 (fun _ => 0) [65] [0, 65] rfl

/-- Counterexample to C2 as stated: compressing ten zero bytes gives the
single group with control byte 2 whose token 1 is a back reference
(stored bytes 0x00, 0x08), yet bit 7 - 1 = 6 of the control byte is
clear — the set bit is bit 1. -/
theorem c2_bit_order_cex :
    compress (fun _ => 0) (List.replicate 10 0) =
      .ok (serializeGroups [(2, [⟨0, 0⟩, ⟨0, 8⟩])]) ∧
    (⟨0, 8⟩ : Mtch).l ≠ 0 ∧
    Nat.testBit 2 (7 - 1) = false ∧ Nat.testBit 2 1 = true :=
  ⟨rfl, by decide, by decide, by decide⟩

/-- Counterexample to C3 as stated: the compressed bytes for ten zero
bytes are [0x02, 0x00, 0x00, 0x08], not [0x40, 0x00, 0x00, 0x07], and
decoding [0x40, 0x00, 0x00, 0x07] gives the three literals
[0x00, 0x00, 0x07], not ten zeros. -/
theorem c3_vector_cex :
    compress (fun _ => 0) (List.replicate 10 0) = .ok [2, 0, 0, 8] ∧
    ([2, 0, 0, 8] : List Nat) ≠ [64, 0, 0, 7] ∧
    decompress none (fun _ => 0) 0 [64, 0, 0, 7] = .ok [0, 0, 7] ∧
    ([0, 0, 7] : List Nat) ≠ List.replicate 10 0 :=
  ⟨rfl, by decide, rfl, by decide⟩

/-- C3 (corrected vector): ten zero bytes compress to
[0b00000010, 0x00, 0x00, 0x08] — one literal 0x00 and one back
reference with stored offset 0x00 and stored length 0x08 — and those
four bytes decode back to ten zero bytes. -/
theorem c3_vector :
    compress (fun _ => 0) (List.replicate 10 0) = .ok [2, 0, 0, 8] ∧
    decompress none (fun _ => 0) 0 [2, 0, 0, 8] = .ok (List.replicate 10 0) :=
  ⟨rfl, rfl⟩

/-! ## KMP search: failure function and longest-match correctness -/

/-- Byte `k` of the lookahead (the KMP pattern), read through the ring
mask as the code does. -/
def patByte (w : Wnd) (k : Nat) : Nat := w.bf (ring_mask (w.lookahead.tl + k))

/-- Byte `k` of the concatenated text dictionary ++ lookahead. -/
def txtByte (w : Wnd) (k : Nat) : Nat := w.bf (ring_mask (w.dictionary.tl + k))

/-- Well-formedness of a window: adjacent rings with non-crossed
head/tail and a lookahead of at most RING_SIZE bytes. -/
def WndOK (w : Wnd) : Prop :=
  w.dictionary.hd = w.lookahead.tl ∧ w.dictionary.tl ≤ w.dictionary.hd ∧
    w.lookahead.tl ≤ w.lookahead.hd ∧ ring_size w.lookahead ≤ 256

instance (w : Wnd) : Decidable (WndOK w) := by unfold WndOK; infer_instance

/-- A legal match for the spec: the first `l` bytes of the lookahead
equal `l` consecutive bytes of the text dictionary ++ lookahead starting
at offset `s`, with `s` strictly inside the dictionary. -/
def LegalMatch (w : Wnd) (s l : Nat) : Prop :=
  s < ring_size w.dictionary ∧ 1 ≤ l ∧ l ≤ ring_size w.lookahead ∧
    ∀ k < l, patByte w k = txtByte w (s + k)

instance (w : Wnd) (s l : Nat) : Decidable (LegalMatch w s l) := by
  unfold LegalMatch; infer_instance

/-- The text continues into the lookahead: text byte D + k is pattern
byte k. -/
theorem txtByte_pat (w : Wnd) (h : WndOK w) (k : Nat) :
    txtByte w (ring_size w.dictionary + k) = patByte w k := by
  obtain ⟨hadj, hdtl, hltl, hm⟩ := h
  unfold txtByte patByte ring_size
  congr 2
  omega

/-- A border of the length-`q` prefix of the pattern: its first `b`
bytes equal its last `b` bytes. -/
def Bord (w : Wnd) (q b : Nat) : Prop := ∀ k < b, patByte w k = patByte w (q - b + k)

instance (w : Wnd) (q b : Nat) : Decidable (Bord w q b) := by
  unfold Bord; infer_instance

/-- The KMP failure function: length of the longest proper border of the
length-`q` prefix. -/
def failF (w : Wnd) (q : Nat) : Nat := Nat.findGreatest (Bord w q) (q - 1)

theorem failF_le (w : Wnd) (q : Nat) : failF w q ≤ q - 1 := Nat.findGreatest_le _

theorem failF_bord (w : Wnd) (q : Nat) : Bord w q (failF w q) := by
  have h0 : Bord w q 0 := fun k hk => by omega
  exact Nat.findGreatest_spec (Nat.zero_le _) h0

theorem failF_max (w : Wnd) (q b : Nat) (hb : b < q) (hbord : Bord w q b) :
    b ≤ failF w q := Nat.le_findGreatest (by omega) hbord

/-- Transitivity of borders: a border of a border is a border. -/
theorem bord_trans (w : Wnd) (q c b : Nat) (hcq : c ≤ q) (hbc : b ≤ c)
    (h1 : Bord w q c) (h2 : Bord w c b) : Bord w q b := by
  intro k hk
  rw [h2 k hk]
  have := h1 (c - b + k) (by omega)
  rw [this]
  congr 1
  omega

/-- Of two borders of the same prefix the smaller is a border of the
larger. -/
theorem bord_smaller (w : Wnd) (q c b : Nat) (hcq : c ≤ q) (hbc : b ≤ c)
    (h1 : Bord w q c) (h2 : Bord w q b) : Bord w c b := by
  intro k hk
  rw [h2 k hk]
  have h3 := h1 (c - b + k) (by omega)
  have harith : q - c + (c - b + k) = q - b + k := by omega
  rw [harith] at h3
  exact h3.symm

/-- Extending a border by one matching byte. -/
theorem bord_succ (w : Wnd) (q b : Nat) (hb : b ≤ q) :
    Bord w (q + 1) (b + 1) ↔ (Bord w q b ∧ patByte w b = patByte w q) := by
  constructor
  · intro h
    constructor
    · intro k hk
      have := h k (by omega)
      rw [this]
      congr 1
      omega
    · have := h b (by omega)
      rw [this]
      congr 1
      omega
  · rintro ⟨h1, h2⟩
    intro k hk
    rcases Nat.lt_or_ge k b with hkb | hkb
    · have := h1 k hkb
      rw [this]
      congr 1
      omega
    · have hkeq : k = b := by omega
      subst hkeq
      rw [h2]
      congr 1
      omega

theorem failF_one (w : Wnd) : failF w 1 = 0 := rfl

/-- Value of the failure function after a matching extension step. -/
theorem failF_succ_match (w : Wnd) (q c : Nat) (hcq : c < q)
    (hbord : Bord w q c)
    (hmax : ∀ b < q, Bord w q b → c < b → patByte w b ≠ patByte w q)
    (heq : patByte w c = patByte w q) :
    failF w (q + 1) = c + 1 := by
  have hle : c + 1 ≤ failF w (q + 1) :=
    failF_max w (q + 1) (c + 1) (by omega) ((bord_succ w q c (by omega)).mpr ⟨hbord, heq⟩)
  have hge : failF w (q + 1) ≤ c + 1 := by
    by_contra hcon
    have hF : failF w (q + 1) ≤ q := by
      have := failF_le w (q + 1)
      omega
    have hF1 : 1 ≤ failF w (q + 1) := by omega
    obtain ⟨hb, hpb⟩ := (bord_succ w q (failF w (q + 1) - 1) (by omega)).mp
      (by
        have := failF_bord w (q + 1)
        rwa [show failF w (q + 1) = (failF w (q + 1) - 1) + 1 from by omega] at this)
    exact hmax (failF w (q + 1) - 1) (by omega) hb (by omega) hpb
  omega

/-- Value of the failure function after a mismatch at the pattern
start. -/
theorem failF_succ_zero (w : Wnd) (q : Nat) (hq : 1 ≤ q)
    (hmax : ∀ b < q, Bord w q b → 0 < b → patByte w b ≠ patByte w q)
    (hne : patByte w 0 ≠ patByte w q) :
    failF w (q + 1) = 0 := by
  by_contra hcon
  have hF : failF w (q + 1) ≤ q := by
    have := failF_le w (q + 1)
    omega
  have hF1 : 1 ≤ failF w (q + 1) := by omega
  obtain ⟨hb, hpb⟩ := (bord_succ w q (failF w (q + 1) - 1) (by omega)).mp
    (by
      have := failF_bord w (q + 1)
      rwa [show failF w (q + 1) = (failF w (q + 1) - 1) + 1 from by omega] at this)
  rcases Nat.eq_zero_or_pos (failF w (q + 1) - 1) with h0 | h0
  · rw [h0] at hpb
    exact hne hpb
  · exact hmax (failF w (q + 1) - 1) (by omega) hb h0 hpb

/-- Correctness and sufficient fuel for the kmp_init loop: starting from
a state satisfying the construction invariant, the loop terminates and
fills the table with the failure function. -/
theorem kmpInitLoop_correct (w : Wnd) (hwf : WndOK w) :
    ∀ (fuel : Nat) (i j : Nat) (t : Nat → Nat),
      w.lookahead.tl ≤ i → i < j → j < w.lookahead.hd →
      (∀ x < j - w.lookahead.tl, t x = failF w (x + 1)) →
      Bord w (j - w.lookahead.tl) (i - w.lookahead.tl) →
      (∀ b < j - w.lookahead.tl, Bord w (j - w.lookahead.tl) b →
        i - w.lookahead.tl < b →
        patByte w b ≠ patByte w (j - w.lookahead.tl)) →
      3 * (w.lookahead.hd - j) + (i - w.lookahead.tl) < fuel →
      ∃ t2, kmpInitLoop w fuel i j t = some t2 ∧
        ∀ x < ring_size w.lookahead, t2 x = failF w (x + 1) := by
  obtain ⟨hadj, hdtl, hltl, hm256⟩ := hwf
  intro fuel
  induction fuel with
  | zero =>
    intro i j t h1 h2 h3 h4 h5 h6 h7
    omega
  | succ fuel ih =>
    intro i j t h1 h2 h3 h4 h5 h6 h7
    have hPi : w.bf (ring_mask i) = patByte w (i - w.lookahead.tl) := by
      unfold patByte
      congr 2
      omega
    have hPj : w.bf (ring_mask j) = patByte w (j - w.lookahead.tl) := by
      unfold patByte
      congr 2
      omega
    have hqm : j - w.lookahead.tl < ring_size w.lookahead := by
      unfold ring_size
      omega
    by_cases hbeq : w.bf (ring_mask i) = w.bf (ring_mask j)
    · -- extension: the bytes match
      have hPc : patByte w (i - w.lookahead.tl) = patByte w (j - w.lookahead.tl) := by
        rw [← hPi, ← hPj, hbeq]
      have hfail : failF w ((j - w.lookahead.tl) + 1) = (i - w.lookahead.tl) + 1 :=
        failF_succ_match w _ _ (by omega) h5 h6 hPc
      have hval : (i + 1 - w.lookahead.tl) % 256 = (i - w.lookahead.tl) + 1 := by
        have : i + 1 - w.lookahead.tl = (i - w.lookahead.tl) + 1 := by omega
        rw [this]
        apply Nat.mod_eq_of_lt
        unfold ring_size at hm256 hqm
        omega
      have hfill : ∀ x < (j + 1) - w.lookahead.tl,
          updN t (j - w.lookahead.tl) ((i + 1 - w.lookahead.tl) % 256) x =
            failF w (x + 1) := by
        intro x hx
        unfold updN
        by_cases hxq : x = j - w.lookahead.tl
        · rw [if_pos hxq, hval, hxq, hfail]
        · rw [if_neg hxq]
          exact h4 x (by omega)
      by_cases hend : j + 1 = w.lookahead.hd
      · refine ⟨updN t (j - w.lookahead.tl) ((i + 1 - w.lookahead.tl) % 256), ?_, ?_⟩
        · simp only [kmpInitLoop, if_pos hbeq, if_pos hend]
        · intro x hx
          apply hfill
          unfold ring_size at hx
          omega
      · have hrec := ih (i + 1) (j + 1) _ (by omega) (by omega) (by omega) hfill
          (by
            rw [show j + 1 - w.lookahead.tl = (j - w.lookahead.tl) + 1 from by omega,
              show i + 1 - w.lookahead.tl = (i - w.lookahead.tl) + 1 from by omega]
            exact (bord_succ w _ _ (by omega)).mpr ⟨h5, hPc⟩)
          (by
            intro b hb hbord hcb
            have := failF_max w ((j - w.lookahead.tl) + 1) b
              (by omega : b < (j - w.lookahead.tl) + 1)
              (by rwa [show j + 1 - w.lookahead.tl = (j - w.lookahead.tl) + 1
                from by omega] at hbord)
            rw [hfail] at this
            intro hcon
            omega)
          (by omega)
        obtain ⟨t2, hrun, hfin⟩ := hrec
        refine ⟨t2, ?_, hfin⟩
        simp only [kmpInitLoop, if_pos hbeq, if_neg hend]
        exact hrun
    · by_cases hitl : i = w.lookahead.tl
      · -- mismatch at the pattern start
        have hPne : patByte w 0 ≠ patByte w (j - w.lookahead.tl) := by
          intro hcon
          apply hbeq
          rw [hPi, hPj, hitl]
          simpa using hcon
        have hfail : failF w ((j - w.lookahead.tl) + 1) = 0 :=
          failF_succ_zero w _ (by omega)
            (by
              intro b hb hbord hb0
              apply h6 b hb hbord
              omega)
            hPne
        have hfill : ∀ x < (j + 1) - w.lookahead.tl,
            updN t (j - w.lookahead.tl) 0 x = failF w (x + 1) := by
          intro x hx
          unfold updN
          by_cases hxq : x = j - w.lookahead.tl
          · rw [if_pos hxq, hxq, hfail]
          · rw [if_neg hxq]
            exact h4 x (by omega)
        by_cases hend : j + 1 = w.lookahead.hd
        · refine ⟨updN t (j - w.lookahead.tl) 0, ?_, ?_⟩
          · simp only [kmpInitLoop, if_neg hbeq, if_pos hitl, if_pos hend]
          · intro x hx
            apply hfill
            unfold ring_size at hx
            omega
        · have hrec := ih i (j + 1) _ h1 (by omega) (by omega) hfill
            (by
              intro k hk
              rw [hitl] at hk
              omega)
            (by
              intro b hb hbord hcb
              have := failF_max w ((j - w.lookahead.tl) + 1) b
                (by omega : b < (j - w.lookahead.tl) + 1)
                (by rwa [show j + 1 - w.lookahead.tl = (j - w.lookahead.tl) + 1
                  from by omega] at hbord)
              rw [hfail] at this
              intro hcon
              rw [hitl] at hcb
              omega)
            (by omega)
          obtain ⟨t2, hrun, hfin⟩ := hrec
          refine ⟨t2, ?_, hfin⟩
          simp only [kmpInitLoop, if_neg hbeq, if_pos hitl, if_neg hend]
          exact hrun
      · -- fallback through the failure function
        have hc1 : 1 ≤ i - w.lookahead.tl := by omega
        have htc : t (i - w.lookahead.tl - 1) = failF w (i - w.lookahead.tl) := by
          have := h4 (i - w.lookahead.tl - 1) (by omega)
          rw [this]
          congr 1
          omega
        have hcf : failF w (i - w.lookahead.tl) ≤ i - w.lookahead.tl - 1 :=
          failF_le w _
        have hrec := ih (w.lookahead.tl + t (i - w.lookahead.tl - 1)) j t
          (by omega) (by rw [htc]; omega) h3 h4
          (by
            rw [htc, show w.lookahead.tl + failF w (i - w.lookahead.tl) -
              w.lookahead.tl = failF w (i - w.lookahead.tl) from by omega]
            exact bord_trans w _ _ _ (by omega) (by omega) h5 (failF_bord w _))
          (by
            rw [htc, show w.lookahead.tl + failF w (i - w.lookahead.tl) -
              w.lookahead.tl = failF w (i - w.lookahead.tl) from by omega]
            intro b hb hbord hcb
            rcases Nat.lt_trichotomy b (i - w.lookahead.tl) with hlt | heq2 | hgt
            · -- a border strictly between the fallback value and c
              intro hcon
              have hbc : Bord w (i - w.lookahead.tl) b :=
                bord_smaller w (j - w.lookahead.tl) (i - w.lookahead.tl) b
                  (by omega) (by omega) h5 hbord
              have := failF_max w (i - w.lookahead.tl) b hlt hbc
              omega
            · -- the current mismatch
              subst heq2
              intro hcon
              apply hbeq
              rw [hPi, hPj, hcon]
            · exact h6 b hb hbord hgt)
          (by rw [htc]; omega)
        obtain ⟨t2, hrun, hfin⟩ := hrec
        refine ⟨t2, ?_, hfin⟩
        simp only [kmpInitLoop, if_neg hbeq, if_neg hitl]
        exact hrun

/-- kmp_init succeeds on lookaheads of at least 2 bytes and fills the
table with the failure function. -/
theorem kmp_init_correct (t0 : Nat → Nat) (w : Wnd) (hwf : WndOK w)
    (hm : 2 ≤ ring_size w.lookahead) :
    ∃ tab, kmp_init t0 w = some tab ∧
      ∀ x < ring_size w.lookahead, tab x = failF w (x + 1) := by
  have hwf2 := hwf
  obtain ⟨hadj, hdtl, hltl, hm256⟩ := hwf2
  unfold kmp_init
  rw [if_neg (by omega)]
  apply kmpInitLoop_correct w hwf (kmpInitFuel w) w.lookahead.tl
    (w.lookahead.tl + 1) (updN t0 0 0) (Nat.le_refl _) (by omega)
    (by unfold ring_size at hm; omega)
  · intro x hx
    have hx0 : x = 0 := by omega
    subst hx0
    unfold updN
    rw [if_pos rfl, failF_one]
  · intro k hk
    omega
  · intro b hb hbord hb0
    omega
  · unfold kmpInitFuel ring_size
    omega

/-- Main invariant proof for the kmp_search loop.  `i` is the pattern
cursor, `j` the text cursor; the candidate text start is
`(j - dict.tl) - (i - look.tl)`.  On termination the result is a sound
match (or the initial zero pair) and no legal match is longer. -/
theorem kmpLoop_correct (w : Wnd) (hwf : WndOK w) (a : Nat → Nat)
    (htab : ∀ x, x + 1 < ring_size w.lookahead → a x = failF w (x + 1)) :
    ∀ (fuel : Nat) (i j : Nat) (p : Pair),
      w.lookahead.tl ≤ i → i < w.lookahead.hd →
      w.dictionary.tl ≤ j → j ≤ w.lookahead.hd →
      i - w.lookahead.tl ≤ j - w.dictionary.tl →
      (j - w.dictionary.tl) - (i - w.lookahead.tl) ≤ ring_size w.dictionary →
      (∀ k < i - w.lookahead.tl,
        patByte w k =
          txtByte w ((j - w.dictionary.tl) - (i - w.lookahead.tl) + k)) →
      (p.l = 0 ∨ LegalMatch w p.o p.l) →
      (∀ s l, LegalMatch w s l →
        s < (j - w.dictionary.tl) - (i - w.lookahead.tl) → l ≤ p.l) →
      3 * (w.lookahead.hd - j) + (i - w.lookahead.tl) < fuel →
      ∃ q, kmpLoop w a fuel i j p = some q ∧
        (q.l = 0 ∨ LegalMatch w q.o q.l) ∧
        (∀ s l, LegalMatch w s l → l ≤ q.l) := by
  have hwf2 := hwf
  obtain ⟨hadj, hdtl, hltl, hm256⟩ := hwf2
  intro fuel
  induction fuel with
  | zero =>
    intro i j p h1 h2 h3 h4 h5 h6 h7 h8 h9 h10
    omega
  | succ fuel ih =>
    intro i j p h1 h2 h3 h4 h5 h6 h7 h8 h9 h10
    by_cases hjend : j = w.lookahead.hd
    · -- unreachable: the candidate start would lie beyond the dictionary
      exfalso
      unfold ring_size at h6
      omega
    · have hjlt : j < w.lookahead.hd := by omega
      by_cases hbreak : (j - w.dictionary.tl) - (i - w.lookahead.tl) =
          ring_size w.dictionary
      · -- o = dict.size: break and return the best pair so far
        refine ⟨p, ?_, h8, ?_⟩
        · simp only [kmpLoop, if_neg hjend, if_pos hbreak]
        · intro s l hleg
          apply h9 s l hleg
          rw [hbreak]
          exact hleg.1
      · have hslt : (j - w.dictionary.tl) - (i - w.lookahead.tl) <
            ring_size w.dictionary := by omega
        by_cases hbeq : w.bf (ring_mask i) = w.bf (ring_mask j)
        · -- the bytes match
          have hext : patByte w (i - w.lookahead.tl) =
              txtByte w ((j - w.dictionary.tl) - (i - w.lookahead.tl) +
                (i - w.lookahead.tl)) := by
            unfold patByte txtByte
            rw [show w.lookahead.tl + (i - w.lookahead.tl) = i from by omega,
              show w.dictionary.tl + ((j - w.dictionary.tl) -
                (i - w.lookahead.tl) + (i - w.lookahead.tl)) = j from by omega]
            exact hbeq
          by_cases hfull : i + 1 = w.lookahead.hd
          · -- full match of the whole lookahead
            refine ⟨⟨(j - w.dictionary.tl) - (i - w.lookahead.tl),
              (i - w.lookahead.tl) + 1⟩, ?_, ?_, ?_⟩
            · simp only [kmpLoop, if_neg hjend, if_neg hbreak, if_pos hbeq,
                if_pos hfull]
            · right
              refine ⟨hslt, Nat.le_add_left 1 _, ?_, ?_⟩
              · show (i - w.lookahead.tl) + 1 ≤ ring_size w.lookahead
                unfold ring_size
                omega
              · intro k hk
                have hk2 : k < (i - w.lookahead.tl) + 1 := hk
                rcases Nat.lt_or_ge k (i - w.lookahead.tl) with hkc | hkc
                · exact h7 k hkc
                · have hkeq : k = i - w.lookahead.tl := by omega
                  subst hkeq
                  exact hext
            · intro s l hleg
              show l ≤ (i - w.lookahead.tl) + 1
              have := hleg.2.2.1
              unfold ring_size at this
              omega
          · -- advance both cursors
            have hrec := ih (i + 1) (j + 1) p (by omega) (by omega) (by omega)
              (by omega) (by omega)
              (by
                have : (j + 1 - w.dictionary.tl) - (i + 1 - w.lookahead.tl) =
                    (j - w.dictionary.tl) - (i - w.lookahead.tl) := by omega
                omega)
              (by
                intro k hk
                have harith : (j + 1 - w.dictionary.tl) -
                    (i + 1 - w.lookahead.tl) =
                    (j - w.dictionary.tl) - (i - w.lookahead.tl) := by omega
                rw [harith]
                rcases Nat.lt_or_ge k (i - w.lookahead.tl) with hkc | hkc
                · exact h7 k hkc
                · have hkeq : k = i - w.lookahead.tl := by omega
                  subst hkeq
                  exact hext)
              h8
              (by
                intro s l hleg hs
                apply h9 s l hleg
                omega)
              (by omega)
            obtain ⟨q, hrun, hq⟩ := hrec
            refine ⟨q, ?_, hq⟩
            simp only [kmpLoop, if_neg hjend, if_neg hbreak, if_pos hbeq,
              if_neg hfull]
            exact hrun
        · by_cases hitl : i = w.lookahead.tl
          · -- mismatch with nothing matched: advance the text cursor
            have hP0 : patByte w 0 ≠
                txtByte w ((j - w.dictionary.tl) - (i - w.lookahead.tl)) := by
              intro hcon
              apply hbeq
              unfold patByte txtByte at hcon
              rw [show ring_mask (w.lookahead.tl + 0) = ring_mask i from by
                congr 1; omega, show ring_mask (w.dictionary.tl +
                  ((j - w.dictionary.tl) - (i - w.lookahead.tl))) =
                  ring_mask j from by
                    congr 1
                    omega] at hcon
              exact hcon
            have hrec := ih i (j + 1) p h1 h2 (by omega) (by omega) (by omega)
              (by omega)
              (by
                intro k hk
                rw [hitl] at hk
                omega)
              h8
              (by
                intro s l hleg hs
                rcases Nat.lt_or_ge s ((j - w.dictionary.tl) -
                    (i - w.lookahead.tl)) with hss | hss
                · exact h9 s l hleg hss
                · exfalso
                  apply hP0
                  have h0 := hleg.2.2.2 0 hleg.2.1
                  rw [h0]
                  congr 1
                  omega)
              (by omega)
            obtain ⟨q, hrun, hq⟩ := hrec
            refine ⟨q, ?_, hq⟩
            simp only [kmpLoop, if_neg hjend, if_neg hbreak, if_neg hbeq,
              if_pos hitl]
            exact hrun
          · -- mismatch after a partial match: fall back via the table
            have hc1 : 1 ≤ i - w.lookahead.tl := by omega
            have hcm : i - w.lookahead.tl < ring_size w.lookahead := by
              unfold ring_size
              omega
            have hfa : a (i - w.lookahead.tl - 1) =
                failF w (i - w.lookahead.tl) := by
              have := htab (i - w.lookahead.tl - 1) (by omega)
              rw [this]
              congr 1
              omega
            have hcf : failF w (i - w.lookahead.tl) ≤
                i - w.lookahead.tl - 1 := failF_le w _
            have hPmis : patByte w (i - w.lookahead.tl) ≠
                txtByte w ((j - w.dictionary.tl) - (i - w.lookahead.tl) +
                  (i - w.lookahead.tl)) := by
              intro hcon
              apply hbeq
              unfold patByte txtByte at hcon
              rw [show ring_mask (w.lookahead.tl + (i - w.lookahead.tl)) =
                ring_mask i from by congr 1; omega,
                show ring_mask (w.dictionary.tl +
                  ((j - w.dictionary.tl) - (i - w.lookahead.tl) +
                    (i - w.lookahead.tl))) = ring_mask j from by
                  congr 1
                  omega] at hcon
              exact hcon
            -- the period argument: the fallback start stays inside the text
            have hnoskip : (j - w.dictionary.tl) -
                (failF w (i - w.lookahead.tl)) ≤ ring_size w.dictionary := by
              by_contra hcon
              -- then c - d is a border of the length-c prefix beyond failF c
              have hd1 : ring_size w.dictionary -
                  ((j - w.dictionary.tl) - (i - w.lookahead.tl)) <
                  i - w.lookahead.tl := by omega
              have hbord : Bord w (i - w.lookahead.tl)
                  ((i - w.lookahead.tl) -
                    (ring_size w.dictionary -
                      ((j - w.dictionary.tl) - (i - w.lookahead.tl)))) := by
                intro k hk
                have hk1 := h7 k (by omega)
                have hk2 := h7 ((ring_size w.dictionary -
                  ((j - w.dictionary.tl) - (i - w.lookahead.tl))) + k)
                  (by omega)
                have hk3 := txtByte_pat w hwf k
                rw [show (j - w.dictionary.tl) - (i - w.lookahead.tl) +
                  ((ring_size w.dictionary -
                    ((j - w.dictionary.tl) - (i - w.lookahead.tl))) + k) =
                  ring_size w.dictionary + k from by omega] at hk2
                rw [show (i - w.lookahead.tl) -
                  ((i - w.lookahead.tl) -
                    (ring_size w.dictionary -
                      ((j - w.dictionary.tl) - (i - w.lookahead.tl)))) + k =
                  (ring_size w.dictionary -
                    ((j - w.dictionary.tl) - (i - w.lookahead.tl))) + k
                  from by omega, hk2, hk3]
              have := failF_max w (i - w.lookahead.tl) _ (by omega) hbord
              omega
            have hrec := ih
              (w.lookahead.tl + a (i - w.lookahead.tl - 1)) j
              (if p.l < i - w.lookahead.tl then
                ⟨(j - w.dictionary.tl) - (i - w.lookahead.tl),
                  i - w.lookahead.tl⟩ else p)
              (by omega) (by rw [hfa]; omega) h3 h4 (by rw [hfa]; omega)
              (by
                rw [hfa, show (w.lookahead.tl + failF w (i - w.lookahead.tl)) -
                  w.lookahead.tl = failF w (i - w.lookahead.tl) from by omega]
                exact hnoskip)
              (by
                rw [hfa]
                intro k hk
                rw [show (w.lookahead.tl + failF w (i - w.lookahead.tl)) -
                  w.lookahead.tl = failF w (i - w.lookahead.tl) from by omega]
                have hb := failF_bord w (i - w.lookahead.tl)
                rw [hb k (by omega)]
                have := h7 ((i - w.lookahead.tl) -
                  failF w (i - w.lookahead.tl) + k) (by omega)
                rw [this]
                congr 1
                omega)
              (by
                by_cases hup : p.l < i - w.lookahead.tl
                · rw [if_pos hup]
                  right
                  refine ⟨hslt, ?_, ?_, h7⟩
                  · show 1 ≤ i - w.lookahead.tl
                    omega
                  · show i - w.lookahead.tl ≤ ring_size w.lookahead
                    unfold ring_size
                    omega
                · rw [if_neg hup]
                  exact h8)
              (by
                intro s l hleg hs
                rw [show (w.lookahead.tl + a (i - w.lookahead.tl - 1)) -
                  w.lookahead.tl = a (i - w.lookahead.tl - 1) from by
                    omega, hfa] at hs
                have hgoal : l ≤ i - w.lookahead.tl ∨ l ≤ p.l := by
                  rcases Nat.lt_trichotomy s ((j - w.dictionary.tl) -
                      (i - w.lookahead.tl)) with hss | hss | hss
                  · exact Or.inr (h9 s l hleg hss)
                  · -- the abandoned start: the match stops at the mismatch
                    left
                    by_contra hcon
                    apply hPmis
                    have := hleg.2.2.2 (i - w.lookahead.tl) (by omega)
                    rw [this, hss]
                  · -- a skipped start would give a longer border
                    left
                    by_contra hcon
                    have hd2 : s - ((j - w.dictionary.tl) -
                        (i - w.lookahead.tl)) <
                        (i - w.lookahead.tl) -
                          failF w (i - w.lookahead.tl) := by omega
                    have hbord : Bord w (i - w.lookahead.tl)
                        ((i - w.lookahead.tl) -
                          (s - ((j - w.dictionary.tl) -
                            (i - w.lookahead.tl)))) := by
                      intro k hk
                      have hk1 := hleg.2.2.2 k (by omega)
                      have hk2 := h7 ((s - ((j - w.dictionary.tl) -
                        (i - w.lookahead.tl))) + k) (by omega)
                      rw [show (i - w.lookahead.tl) -
                        ((i - w.lookahead.tl) -
                          (s - ((j - w.dictionary.tl) -
                            (i - w.lookahead.tl)))) + k =
                        (s - ((j - w.dictionary.tl) -
                          (i - w.lookahead.tl))) + k from by omega, hk2,
                        show (j - w.dictionary.tl) - (i - w.lookahead.tl) +
                          ((s - ((j - w.dictionary.tl) -
                            (i - w.lookahead.tl))) + k) = s + k from by omega,
                        ← hk1]
                    have := failF_max w (i - w.lookahead.tl) _ (by omega) hbord
                    omega
                by_cases hup : p.l < i - w.lookahead.tl
                · rw [if_pos hup]
                  show l ≤ i - w.lookahead.tl
                  omega
                · rw [if_neg hup]
                  omega)
              (by rw [hfa]; omega)
            obtain ⟨q, hrun, hq⟩ := hrec
            refine ⟨q, ?_, hq⟩
            simp only [kmpLoop, if_neg hjend, if_neg hbreak, if_neg hbeq,
              if_neg hitl]
            exact hrun

/-- Correctness of kmp_search on a well-formed window with non-empty
lookahead: it terminates, its result is sound when it claims a positive
length, and no legal match is longer. -/
theorem kmp_search_correct (w : Wnd) (hwf : WndOK w)
    (hm : 1 ≤ ring_size w.lookahead) :
    ∃ q, kmp_search w = some q ∧
      (q.l = 0 ∨ LegalMatch w q.o q.l) ∧
      (∀ s l, LegalMatch w s l → l ≤ q.l) := by
  have hwf2 := hwf
  obtain ⟨hadj, hdtl, hltl, hm256⟩ := hwf2
  by_cases h2 : 2 ≤ ring_size w.lookahead
  · obtain ⟨tab, hinit, htab⟩ := kmp_init_correct (fun _ => 0) w hwf h2
    have hloop := kmpLoop_correct w hwf tab
      (by
        intro x hx
        exact htab x (by omega))
      (kmpSearchFuel w) w.lookahead.tl w.dictionary.tl ⟨0, 0⟩
      (Nat.le_refl _) (by unfold ring_size at hm; omega) (Nat.le_refl _)
      (by omega) (by omega) (by omega)
      (by intro k hk; omega)
      (Or.inl rfl)
      (by intro s l hleg hs; omega)
      (by unfold kmpSearchFuel; omega)
    obtain ⟨q, hrun, hq⟩ := hloop
    refine ⟨q, ?_, hq⟩
    unfold kmp_search
    rw [hinit]
    exact hrun
  · have hinit : kmp_init (fun _ => 0) w = some (fun _ => 0) := by
      unfold kmp_init
      rw [if_pos (by omega)]
    have hloop := kmpLoop_correct w hwf (fun _ => 0)
      (by intro x hx; omega)
      (kmpSearchFuel w) w.lookahead.tl w.dictionary.tl ⟨0, 0⟩
      (Nat.le_refl _) (by unfold ring_size at hm; omega) (Nat.le_refl _)
      (by omega) (by omega) (by omega)
      (by intro k hk; omega)
      (Or.inl rfl)
      (by intro s l hleg hs; omega)
      (by unfold kmpSearchFuel; omega)
    obtain ⟨q, hrun, hq⟩ := hloop
    refine ⟨q, ?_, hq⟩
    unfold kmp_search
    rw [hinit]
    exact hrun

/-- Counterexample for claim C4: a well-formed window whose lookahead
has only one byte (fewer than 2), on which kmp_search nevertheless
returns a match of length 1, not 0: the claimed "look.size < 2 returns
length 0" clause is false.  Dictionary byte 0 and lookahead byte 0 are
both 0x00, and the search's full-match exit fires immediately. -/
theorem c4_short_lookahead_cex :
    WndOK ⟨⟨1, 0⟩, ⟨2, 1⟩, fun _ => 0⟩ ∧
    ring_size (Wnd.lookahead ⟨⟨1, 0⟩, ⟨2, 1⟩, fun _ => 0⟩) < 2 ∧
    kmp_search ⟨⟨1, 0⟩, ⟨2, 1⟩, fun _ => 0⟩ = some ⟨0, 1⟩ := by
  refine ⟨by decide, by decide, rfl⟩

/-- Claim C4 (amended): for every well-formed window with a non-empty
lookahead, kmp_search returns a pair (o, l) with l as large as possible
such that the first l bytes of the lookahead equal l consecutive bytes
of the concatenated text dictionary ++ lookahead starting at position
dict.tl + o with o strictly less than dict.size (matches may extend into
the lookahead); if no such match exists it returns length 0.  (The
original claim's "look.size < 2 returns length 0" clause is dropped: a
one-byte lookahead can return a length-1 match, see the
counterexample.) -/
theorem c4_kmp_longest_match (w : Wnd) (hwf : WndOK w)
    (hm : 1 ≤ ring_size w.lookahead) :
    ∃ q, kmp_search w = some q ∧
      (1 ≤ q.l → LegalMatch w q.o q.l) ∧
      (∀ s l, LegalMatch w s l → l ≤ q.l) ∧
      ((¬∃ s l, LegalMatch w s l) → q.l = 0) := by
  obtain ⟨q, hrun, hsound, hmax⟩ := kmp_search_correct w hwf hm
  refine ⟨q, hrun, ?_, hmax, ?_⟩
  · intro hl
    rcases hsound with h0 | h
    · omega
    · exact h
  · intro hno
    rcases hsound with h0 | h
    · exact h0
    · exact absurd ⟨q.o, q.l, h⟩ hno

/-- Witness for C4 at a concrete window: dictionary [0, 1], lookahead
[0, 1]. -/
theorem c4_kmp_longest_match_witness :
    WndOK ⟨⟨2, 0⟩, ⟨4, 2⟩, fun n => n % 2⟩ ∧
    1 ≤ ring_size (Wnd.lookahead ⟨⟨2, 0⟩, ⟨4, 2⟩, fun n => n % 2⟩) ∧
    ∃ q, kmp_search ⟨⟨2, 0⟩, ⟨4, 2⟩, fun n => n % 2⟩ = some q ∧
      (1 ≤ q.l → LegalMatch ⟨⟨2, 0⟩, ⟨4, 2⟩, fun n => n % 2⟩ q.o q.l) ∧
      (∀ s l, LegalMatch ⟨⟨2, 0⟩, ⟨4, 2⟩, fun n => n % 2⟩ s l → l ≤ q.l) ∧
      ((¬∃ s l, LegalMatch ⟨⟨2, 0⟩, ⟨4, 2⟩, fun n => n % 2⟩ s l) → q.l = 0) :=
  ⟨by decide, by decide,
    c4_kmp_longest_match ⟨⟨2, 0⟩, ⟨4, 2⟩, fun n => n % 2⟩ (by decide) (by decide)⟩

/-- Claim C5: the match selector.  On a well-formed window with
non-empty lookahead and dictionary at most 256 bytes, kmp_search
returns some pair p, and `match` emits a literal (the byte at look.tl,
shifting the window by 1) exactly under the claimed heuristic
condition; otherwise it emits a back-reference with stored offset
exactly dict.size - p.o - 1 and stored length exactly p.l - 1, shifting
the window by p.l. -/
theorem c5_match_selector (w : Wnd) (hwf : WndOK w)
    (hm : 1 ≤ ring_size w.lookahead) (hD : ring_size w.dictionary ≤ 256) :
    ∃ p, kmp_search w = some p ∧
      (notWorth w p →
        matchLz w = some (⟨w.bf (ring_mask w.lookahead.tl), 0⟩, wnd_shift w 1)) ∧
      (¬notWorth w p →
        matchLz w = some (⟨ring_size w.dictionary - p.o - 1, p.l - 1⟩,
          wnd_shift w p.l)) := by
  obtain ⟨p, hp, hsound, hmax⟩ := kmp_search_correct w hwf hm
  refine ⟨p, hp, ?_, ?_⟩
  · intro hnw
    simp only [matchLz, hp]
    rw [if_pos hnw]
  · intro hnw
    have h2 : 2 ≤ p.l := by
      by_contra hc
      exact hnw (Or.inl (by omega))
    have hleg : LegalMatch w p.o p.l := by
      rcases hsound with h0 | h
      · omega
      · exact h
    obtain ⟨hoD, hl1, hlm, _⟩ := hleg
    have h64 : (2 : Nat) ^ 64 = 18446744073709551616 := by norm_num
    have hwf2 := hwf
    obtain ⟨hadj, hdtl, hltl, hm256⟩ := hwf2
    have ho : ((2 ^ 64 + ring_size w.dictionary - (p.o + 1)) % 2 ^ 64) % 256 =
        ring_size w.dictionary - p.o - 1 := by
      rw [h64]
      omega
    have hl : (p.l % 256 + 255) % 256 = p.l - 1 := by omega
    simp only [matchLz, hp]
    rw [if_neg hnw, ho, hl]

/-- Witness for C5 at a concrete window: dictionary [0, 1], lookahead
[0, 1]; the KMP result is (0, 2) and a back-reference is emitted. -/
theorem c5_match_selector_witness :
    WndOK ⟨⟨2, 0⟩, ⟨4, 2⟩, fun n => n % 2⟩ ∧
    1 ≤ ring_size (Wnd.lookahead ⟨⟨2, 0⟩, ⟨4, 2⟩, fun n => n % 2⟩) ∧
    ring_size (Wnd.dictionary ⟨⟨2, 0⟩, ⟨4, 2⟩, fun n => n % 2⟩) ≤ 256 ∧
    ∃ p, kmp_search ⟨⟨2, 0⟩, ⟨4, 2⟩, fun n => n % 2⟩ = some p ∧
      (notWorth ⟨⟨2, 0⟩, ⟨4, 2⟩, fun n => n % 2⟩ p →
        matchLz ⟨⟨2, 0⟩, ⟨4, 2⟩, fun n => n % 2⟩ =
          some (⟨(fun n => n % 2) (ring_mask
              (Ring.tl (Wnd.lookahead ⟨⟨2, 0⟩, ⟨4, 2⟩, fun n => n % 2⟩))), 0⟩,
            wnd_shift ⟨⟨2, 0⟩, ⟨4, 2⟩, fun n => n % 2⟩ 1)) ∧
      (¬notWorth ⟨⟨2, 0⟩, ⟨4, 2⟩, fun n => n % 2⟩ p →
        matchLz ⟨⟨2, 0⟩, ⟨4, 2⟩, fun n => n % 2⟩ =
          some (⟨ring_size (Wnd.dictionary ⟨⟨2, 0⟩, ⟨4, 2⟩, fun n => n % 2⟩) -
              p.o - 1, p.l - 1⟩,
            wnd_shift ⟨⟨2, 0⟩, ⟨4, 2⟩, fun n => n % 2⟩ p.l)) :=
  ⟨by decide, by decide, by decide,
    c5_match_selector ⟨⟨2, 0⟩, ⟨4, 2⟩, fun n => n % 2⟩
      (by decide) (by decide) (by decide)⟩

/-- Claim C7: cast safety in `match`.  Whenever a back-reference is
emitted from a KMP result p on a well-formed window whose dictionary
holds at most 256 bytes, the narrowing of the stored fields to one byte
is lossless: p.o < dict.size, 1 ≤ p.l ≤ look.size, both stored values
lie in [0, 255], and the truncating C expressions equal the exact
subtractions dict.size - p.o - 1 and p.l - 1. -/
theorem c7_cast_safety (w : Wnd) (p : Pair) (hwf : WndOK w)
    (hm : 1 ≤ ring_size w.lookahead) (hD : ring_size w.dictionary ≤ 256)
    (hp : kmp_search w = some p) (hnw : ¬notWorth w p) :
    p.o < ring_size w.dictionary ∧ 1 ≤ p.l ∧ p.l ≤ ring_size w.lookahead ∧
      ring_size w.dictionary - p.o - 1 ≤ 255 ∧ p.l - 1 ≤ 255 ∧
      ((2 ^ 64 + ring_size w.dictionary - (p.o + 1)) % 2 ^ 64) % 256 =
        ring_size w.dictionary - p.o - 1 ∧
      (p.l % 256 + 255) % 256 = p.l - 1 := by
  obtain ⟨q, hq, hsound, hmax⟩ := kmp_search_correct w hwf hm
  rw [hp] at hq
  have hqp : q = p := (Option.some.inj hq).symm
  subst hqp
  have h2 : 2 ≤ q.l := by
    by_contra hc
    exact hnw (Or.inl (by omega))
  have hleg : LegalMatch w q.o q.l := by
    rcases hsound with h0 | h
    · omega
    · exact h
  obtain ⟨hoD, hl1, hlm, _⟩ := hleg
  have hwf2 := hwf
  obtain ⟨hadj, hdtl, hltl, hm256⟩ := hwf2
  have h64 : (2 : Nat) ^ 64 = 18446744073709551616 := by norm_num
  refine ⟨hoD, hl1, hlm, by omega, by omega, ?_, by omega⟩
  rw [h64]
  omega

/-- Witness for C7 at a concrete window: dictionary [0, 1], lookahead
[0, 1], KMP result (0, 2). -/
theorem c7_cast_safety_witness :
    WndOK ⟨⟨2, 0⟩, ⟨4, 2⟩, fun n => n % 2⟩ ∧
    1 ≤ ring_size (Wnd.lookahead ⟨⟨2, 0⟩, ⟨4, 2⟩, fun n => n % 2⟩) ∧
    ring_size (Wnd.dictionary ⟨⟨2, 0⟩, ⟨4, 2⟩, fun n => n % 2⟩) ≤ 256 ∧
    kmp_search ⟨⟨2, 0⟩, ⟨4, 2⟩, fun n => n % 2⟩ = some ⟨0, 2⟩ ∧
    ¬notWorth ⟨⟨2, 0⟩, ⟨4, 2⟩, fun n => n % 2⟩ ⟨0, 2⟩ ∧
    ((0 : Nat) < ring_size (Wnd.dictionary ⟨⟨2, 0⟩, ⟨4, 2⟩, fun n => n % 2⟩) ∧
      1 ≤ 2 ∧ 2 ≤ ring_size (Wnd.lookahead ⟨⟨2, 0⟩, ⟨4, 2⟩, fun n => n % 2⟩) ∧
      ring_size (Wnd.dictionary ⟨⟨2, 0⟩, ⟨4, 2⟩, fun n => n % 2⟩) - 0 - 1 ≤ 255 ∧
      2 - 1 ≤ 255 ∧
      ((2 ^ 64 + ring_size (Wnd.dictionary ⟨⟨2, 0⟩, ⟨4, 2⟩, fun n => n % 2⟩) -
          (0 + 1)) % 2 ^ 64) % 256 =
        ring_size (Wnd.dictionary ⟨⟨2, 0⟩, ⟨4, 2⟩, fun n => n % 2⟩) - 0 - 1 ∧
      (2 % 256 + 255) % 256 = 2 - 1) :=
  ⟨by decide, by decide, by decide, rfl, by decide,
    c7_cast_safety ⟨⟨2, 0⟩, ⟨4, 2⟩, fun n => n % 2⟩ ⟨0, 2⟩
      (by decide) (by decide) (by decide) rfl (by decide)⟩

/-! ## C1: round trip.  First the semantic window invariant tying the
compressor's ring buffer to the source byte list. -/

theorem ring_mask_eq (v : Nat) : ring_mask v = v % 512 := rfl

theorem writeBytes_lt :
    ∀ (xs : List Nat) (f : Nat → Nat) (pos q : Nat), q < pos →
      writeBytes f pos xs q = f q := by
  intro xs
  induction xs with
  | nil =>
    intro f pos q h
    rfl
  | cons x xs ih =>
    intro f pos q h
    show writeBytes (updN f pos x) (pos + 1) xs q = f q
    rw [ih _ _ _ (by omega)]
    unfold updN
    rw [if_neg (by omega)]

theorem writeBytes_ge :
    ∀ (xs : List Nat) (f : Nat → Nat) (pos q : Nat), pos + xs.length ≤ q →
      writeBytes f pos xs q = f q := by
  intro xs
  induction xs with
  | nil =>
    intro f pos q h
    rfl
  | cons x xs ih =>
    intro f pos q h
    simp only [List.length_cons] at h
    show writeBytes (updN f pos x) (pos + 1) xs q = f q
    rw [ih _ _ _ (by omega)]
    unfold updN
    rw [if_neg (by omega)]

theorem writeBytes_at :
    ∀ (xs : List Nat) (f : Nat → Nat) (pos i : Nat), i < xs.length →
      writeBytes f pos xs (pos + i) = xs.getD i 0 := by
  intro xs
  induction xs with
  | nil =>
    intro f pos i h
    simp at h
  | cons x xs ih =>
    intro f pos i h
    cases i with
    | zero =>
      show writeBytes (updN f pos x) (pos + 1) xs (pos + 0) = x
      rw [writeBytes_lt _ _ _ _ (by omega)]
      unfold updN
      rw [if_pos (by omega)]
    | succ i =>
      simp only [List.length_cons] at h
      show writeBytes (updN f pos x) (pos + 1) xs (pos + (i + 1)) = xs.getD i 0
      rw [show pos + (i + 1) = (pos + 1) + i from by omega]
      exact ih _ _ _ (by omega)

theorem getD_drop (S : List Nat) (n k : Nat) :
    (S.drop n).getD k 0 = S.getD (n + k) 0 := by
  rcases Nat.lt_or_ge (n + k) S.length with h | h
  · rw [List.getD_eq_getElem _ _ (by simp only [List.length_drop]; omega),
      List.getD_eq_getElem _ _ h]
    exact List.getElem_drop _
  · rw [List.getD_eq_default _ _ (by simp only [List.length_drop]; omega),
      List.getD_eq_default _ _ h]

theorem getD_take (S : List Nat) (n k : Nat) (h : k < n) :
    (S.take n).getD k 0 = S.getD k 0 := by
  rcases Nat.lt_or_ge k S.length with h2 | h2
  · rw [List.getD_eq_getElem _ _ (by simp only [List.length_take]; omega),
      List.getD_eq_getElem _ _ h2]
    exact List.getElem_take _
  · rw [List.getD_eq_default _ _ (by simp only [List.length_take]; omega),
      List.getD_eq_default _ _ h2]

theorem take_succ_getD (S : List Nat) (n : Nat) (h : n < S.length) :
    S.take (n + 1) = S.take n ++ [S.getD n 0] := by
  rw [List.take_succ, List.getD_eq_getElem _ _ h]
  congr 1
  rw [List.getElem?_eq_getElem h]
  rfl

/-- The semantic window invariant: a well-formed window over source `S`
whose lookahead head has read `hd` source bytes, whose live cells hold
the corresponding source bytes, and whose two rings each hold at most
256 bytes. -/
def SWnd (S : List Nat) (w : Wnd) : Prop :=
  w.dictionary.hd = w.lookahead.tl ∧
  w.dictionary.tl ≤ w.dictionary.hd ∧
  w.lookahead.tl ≤ w.lookahead.hd ∧
  ring_size w.dictionary ≤ 256 ∧
  ring_size w.lookahead ≤ 256 ∧
  w.lookahead.hd ≤ S.length ∧
  (∀ q, w.dictionary.tl ≤ q → q < w.lookahead.hd →
    w.bf (ring_mask q) = S.getD q 0)

theorem SWnd.toWndOK {S : List Nat} {w : Wnd} (h : SWnd S w) : WndOK w :=
  ⟨h.1, h.2.1, h.2.2.1, h.2.2.2.2.1⟩

theorem SWnd_init (S : List Nat) (bf0 : Nat → Nat) : SWnd S (wnd_init bf0) := by
  refine ⟨rfl, Nat.le_refl _, Nat.le_refl _, by simp [wnd_init, ring_size],
    by simp [wnd_init, ring_size], Nat.zero_le _, ?_⟩
  intro q h1 h2
  simp [wnd_init] at h2

/-- Filling `n` fresh bytes from the source into the lookahead head
preserves the semantic invariant, provided the write fits the physical
run and the ring capacity. -/
theorem fill_sem (S : List Nat) (w : Wnd) (hw : SWnd S w) (n : Nat)
    (hn : n ≤ (S.drop w.lookahead.hd).length)
    (hrun : ring_mask w.lookahead.hd + n ≤ 512)
    (hsize : ring_size w.lookahead + n ≤ 256) :
    SWnd S { w with
      bf := writeBytes w.bf (ring_mask w.lookahead.hd)
        ((S.drop w.lookahead.hd).take n),
      lookahead := ⟨w.lookahead.hd + n, w.lookahead.tl⟩ } := by
  obtain ⟨hadj, hdtl, hltl, hD, hL, hlen, hbf⟩ := hw
  simp only [List.length_drop] at hn
  unfold ring_size at hD hL hsize
  rw [ring_mask_eq] at hrun
  refine ⟨hadj, hdtl, by simp only; omega, hD, by unfold ring_size; simp only; omega,
    by simp only; omega, ?_⟩
  intro q h1 h2
  simp only at h1 h2 ⊢
  have hlentake : ((S.drop w.lookahead.hd).take n).length = n := by
    simp only [List.length_take, List.length_drop]
    omega
  rcases Nat.lt_or_ge q w.lookahead.hd with hq | hq
  · -- an old live cell: the write does not touch it
    have hnot : ¬ (ring_mask w.lookahead.hd ≤ ring_mask q ∧
        ring_mask q < ring_mask w.lookahead.hd + n) := by
      rintro ⟨ha, hb⟩
      rw [ring_mask_eq, ring_mask_eq] at ha hb
      omega
    rcases Nat.lt_or_ge (ring_mask q) (ring_mask w.lookahead.hd) with hc | hc
    · rw [writeBytes_lt _ _ _ _ hc]
      exact hbf q h1 hq
    · have hge : ring_mask w.lookahead.hd + n ≤ ring_mask q := by
        rcases Nat.lt_or_ge (ring_mask q) (ring_mask w.lookahead.hd + n) with hd2 | hd2
        · exact absurd ⟨hc, hd2⟩ hnot
        · exact hd2
      rw [writeBytes_ge _ _ _ _ (by rw [hlentake]; exact hge)]
      exact hbf q h1 hq
  · -- a freshly written cell
    have hi : q - w.lookahead.hd < n := by omega
    have hmq : ring_mask q = ring_mask w.lookahead.hd + (q - w.lookahead.hd) := by
      rw [ring_mask_eq, ring_mask_eq]
      omega
    rw [hmq, writeBytes_at _ _ _ _ (by rw [hlentake]; exact hi),
      getD_take _ _ _ hi, getD_drop]
    congr 1
    omega

/-- Semantics of wnd_read on a window satisfying the invariant: the
invariant is preserved, the dictionary and the lookahead tail are
untouched, the remaining source is the drop at the new head, EOF means
the whole source has been read, and a non-EOF return means the lookahead
was filled to exactly RING_SIZE bytes. -/
theorem wnd_read_sem (S : List Nat) (w : Wnd) (hw : SWnd S w) :
    ∀ w2 src2 eof, wnd_read w (S.drop w.lookahead.hd) = (w2, src2, eof) →
      SWnd S w2 ∧ w2.dictionary = w.dictionary ∧
      w2.lookahead.tl = w.lookahead.tl ∧ w.lookahead.hd ≤ w2.lookahead.hd ∧
      src2 = S.drop w2.lookahead.hd ∧
      (eof = true → w2.lookahead.hd = S.length) ∧
      (eof = false → ring_size w2.lookahead = 256) := by
  intro w2 src2 eof hread
  have hw0 := hw
  obtain ⟨hadj, hdtl, hltl, hD, hL, hlen, hbf⟩ := hw0
  unfold ring_size at hD hL
  simp only [wnd_read] at hread
  set r := ring_run w.lookahead with hrdef
  set c := ring_capacity w.lookahead with hcdef
  set u := min c r with hudef
  set n := min u (S.drop w.lookahead.hd).length with hndef
  have hrval : r = 512 - ring_mask w.lookahead.hd := rfl
  have hcval : c = 256 - ring_size w.lookahead := rfl
  have hmaskb : ring_mask w.lookahead.hd < 512 := by
    rw [ring_mask_eq]
    omega
  have hlrem : (S.drop w.lookahead.hd).length = S.length - w.lookahead.hd := by
    simp
  unfold ring_size at hcval
  rw [ring_mask_eq] at hrval
  have hfill1 := fill_sem S w hw n
    (by omega)
    (by rw [ring_mask_eq]; omega)
    (by unfold ring_size; omega)
  have hdrop1 : (S.drop w.lookahead.hd).drop n = S.drop (w.lookahead.hd + n) := by
    rw [List.drop_drop]
    try rfl
    try (congr 1; omega)
  by_cases h1 : n ≠ u
  · -- EOF in the first round: the source ran out
    rw [if_pos h1] at hread
    rw [Prod.mk.injEq, Prod.mk.injEq] at hread
    obtain ⟨rfl, rfl, rfl⟩ := hread
    refine ⟨hfill1, rfl, rfl, ?_, ?_, ?_, ?_⟩
    · show w.lookahead.hd ≤ w.lookahead.hd + n
      omega
    · show (S.drop w.lookahead.hd).drop n = S.drop (w.lookahead.hd + n)
      exact hdrop1
    · intro _
      show w.lookahead.hd + n = S.length
      omega
    · intro hcon
      simp at hcon
  · rw [if_neg h1] at hread
    by_cases h2 : c = u
    · -- first round filled the lookahead to capacity
      rw [if_pos h2] at hread
      rw [Prod.mk.injEq, Prod.mk.injEq] at hread
      obtain ⟨rfl, rfl, rfl⟩ := hread
      refine ⟨hfill1, rfl, rfl, ?_, ?_, ?_, ?_⟩
      · show w.lookahead.hd ≤ w.lookahead.hd + n
        omega
      · show (S.drop w.lookahead.hd).drop n = S.drop (w.lookahead.hd + n)
        exact hdrop1
      · intro hcon
        simp at hcon
      · intro _
        show w.lookahead.hd + n - w.lookahead.tl = 256
        omega
    · -- second read round at the physical start of the buffer
      rw [if_neg h2] at hread
      rw [hdrop1] at hread
      have hnu : n = u := by omega
      have hur : u = r := by omega
      have hmask1 : ring_mask (w.lookahead.hd + n) = 0 := by
        rw [ring_mask_eq]
        omega
      set w1 : Wnd := { w with
        bf := writeBytes w.bf (ring_mask w.lookahead.hd)
          ((S.drop w.lookahead.hd).take n),
        lookahead := ⟨w.lookahead.hd + n, w.lookahead.tl⟩ } with hw1def
      set r2 := ring_run (⟨w.lookahead.hd + n, w.lookahead.tl⟩ : Ring) with hr2def
      set c2 := ring_capacity (⟨w.lookahead.hd + n, w.lookahead.tl⟩ : Ring) with hc2def
      set u2 := min c2 r2 with hu2def
      set n2 := min u2 (S.drop (w.lookahead.hd + n)).length with hn2def
      have hr2val : r2 = 512 - ring_mask (w.lookahead.hd + n) := rfl
      have hc2val : c2 = 256 - ((w.lookahead.hd + n) - w.lookahead.tl) := rfl
      rw [hmask1] at hr2val
      have hl2 : (S.drop (w.lookahead.hd + n)).length =
          S.length - (w.lookahead.hd + n) := by
        simp
      have hw1look : w1.lookahead = ⟨w.lookahead.hd + n, w.lookahead.tl⟩ := rfl
      have hfill2 := fill_sem S w1 hfill1 n2
        (by rw [hw1look]; simp only; omega)
        (by rw [hw1look]; simp only [hmask1]; omega)
        (by rw [hw1look]; unfold ring_size; simp only; omega)
      have hdrop2 : (S.drop (w.lookahead.hd + n)).drop n2 =
          S.drop (w.lookahead.hd + n + n2) := by
        rw [List.drop_drop]
        try rfl
        try (congr 1; omega)
      by_cases h3 : n2 ≠ u2
      · rw [if_pos h3] at hread
        rw [Prod.mk.injEq, Prod.mk.injEq] at hread
        obtain ⟨rfl, rfl, rfl⟩ := hread
        refine ⟨hfill2, rfl, rfl, ?_, ?_, ?_, ?_⟩
        · show w.lookahead.hd ≤ w.lookahead.hd + n + n2
          omega
        · show (S.drop (w.lookahead.hd + n)).drop n2 =
            S.drop (w.lookahead.hd + n + n2)
          exact hdrop2
        · intro _
          show w.lookahead.hd + n + n2 = S.length
          omega
        · intro hcon
          simp at hcon
      · rw [if_neg h3] at hread
        rw [Prod.mk.injEq, Prod.mk.injEq] at hread
        obtain ⟨rfl, rfl, rfl⟩ := hread
        refine ⟨hfill2, rfl, rfl, ?_, ?_, ?_, ?_⟩
        · show w.lookahead.hd ≤ w.lookahead.hd + n + n2
          omega
        · show (S.drop (w.lookahead.hd + n)).drop n2 =
            S.drop (w.lookahead.hd + n + n2)
          exact hdrop2
        · intro hcon
          simp at hcon
        · intro _
          show w.lookahead.hd + n + n2 - w.lookahead.tl = 256
          omega

/-- Shifting consumed bytes from the lookahead into the dictionary
preserves the semantic invariant. -/
theorem SWnd_shift (S : List Nat) (w : Wnd) (n : Nat) (hw : SWnd S w)
    (hn : n ≤ ring_size w.lookahead) : SWnd S (wnd_shift w n) := by
  obtain ⟨hadj, hdtl, hltl, hD, hL, hlen, hbf⟩ := hw
  unfold ring_size at hD hL hn
  refine ⟨?_, ?_, ?_, ?_, ?_, hlen, ?_⟩
  · show w.dictionary.hd + n = w.lookahead.tl + n
    omega
  · show w.dictionary.tl +
        (if 256 - (w.dictionary.hd - w.dictionary.tl) < n
          then n - (256 - (w.dictionary.hd - w.dictionary.tl)) else 0) ≤
      w.dictionary.hd + n
    split_ifs <;> omega
  · show w.lookahead.tl + n ≤ w.lookahead.hd
    omega
  · show (w.dictionary.hd + n) -
      (w.dictionary.tl +
        (if 256 - (w.dictionary.hd - w.dictionary.tl) < n
          then n - (256 - (w.dictionary.hd - w.dictionary.tl)) else 0)) ≤ 256
    split_ifs <;> omega
  · show w.lookahead.hd - (w.lookahead.tl + n) ≤ 256
    omega
  · intro q h1 h2
    have h1a : w.dictionary.tl +
        (if 256 - (w.dictionary.hd - w.dictionary.tl) < n
          then n - (256 - (w.dictionary.hd - w.dictionary.tl)) else 0) ≤ q := h1
    have h2a : q < w.lookahead.hd := h2
    show w.bf (ring_mask q) = S.getD q 0
    apply hbf q _ h2a
    split_ifs at h1a <;> omega

/-- Decoded output of a single token over an accumulated output. -/
def tokOut1 (acc : List Nat) (t : Mtch) : List Nat :=
  if t.l = 0 then acc ++ [t.v] else acc ++ overlapCopy acc (t.o + 1) (t.l + 1)

theorem tokOut_cons (acc : List Nat) (t : Mtch) (ts : List Mtch) :
    tokOut acc (t :: ts) = tokOut (tokOut1 acc t) ts := by
  show (if t.l = 0 then tokOut (acc ++ [t.v]) ts
    else tokOut (acc ++ overlapCopy acc (t.o + 1) (t.l + 1)) ts) =
    tokOut (tokOut1 acc t) ts
  unfold tokOut1
  split_ifs with h
  · rfl
  · rfl

theorem tokOut_append (xs ys : List Mtch) :
    ∀ acc, tokOut acc (xs ++ ys) = tokOut (tokOut acc xs) ys := by
  induction xs with
  | nil =>
    intro acc
    rfl
  | cons t xs ih =>
    intro acc
    rw [List.cons_append, tokOut_cons, tokOut_cons, ih]

/-- Decodability of a token stream over an accumulated output: every
back reference has a stored offset below 256 and a distance within the
output produced so far. -/
def TokLegal : List Nat → List Mtch → Prop
  | _, [] => True
  | acc, t :: ts =>
    (t.l ≠ 0 → t.o < 256 ∧ t.o + 1 ≤ acc.length) ∧ TokLegal (tokOut1 acc t) ts

theorem TokLegal_append (xs ys : List Mtch) :
    ∀ acc, TokLegal acc (xs ++ ys) → TokLegal acc xs ∧ TokLegal (tokOut acc xs) ys := by
  induction xs with
  | nil =>
    intro acc h
    exact ⟨trivial, h⟩
  | cons t xs ih =>
    intro acc h
    rw [List.cons_append] at h
    obtain ⟨h1, h2⟩ := h
    obtain ⟨h3, h4⟩ := ih _ h2
    refine ⟨⟨h1, h3⟩, ?_⟩
    rw [tokOut_cons]
    exact h4

/-- Generating an overlap copy over a prefix of the source reproduces
the source, provided the source repeats with the copy's period. -/
theorem overlapCopy_source (S : List Nat) (dist : Nat) (pos : Nat)
    (h1 : 0 < dist) (h2 : dist ≤ pos) :
    ∀ cnt, pos + cnt ≤ S.length →
      (∀ k < cnt, S.getD (pos + k) 0 = S.getD (pos + k - dist) 0) →
      S.take pos ++ overlapCopy (S.take pos) dist cnt = S.take (pos + cnt) := by
  intro cnt
  induction cnt with
  | zero =>
    intro hle hrep
    simp [overlapCopy]
  | succ m ih =>
    intro hle hrep
    have hih := ih (by omega) (by intro k hk; exact hrep k (by omega))
    have hlen : (S.take pos).length = pos := by
      simp only [List.length_take]
      omega
    rw [overlapCopy, ← List.append_assoc, hih, hlen]
    have hbyte : (S.take (pos + m)).getD (pos + m - dist) 0 = S.getD (pos + m) 0 := by
      rw [getD_take _ _ _ (by omega)]
      exact (hrep m (by omega)).symm
    rw [hbyte, ← take_succ_getD _ _ (by omega)]
    rfl

/-- Semantic characterization of one `match` step on a window satisfying
the source invariant: the produced token extends the decoded prefix of
the source by the consumed count, and back-reference tokens are
decodable. -/
theorem matchLz_sem (S : List Nat) (w : Wnd) (hw : SWnd S w)
    (hlook : 1 ≤ ring_size w.lookahead) :
    ∃ t n, matchLz w = some (t, wnd_shift w n) ∧ 1 ≤ n ∧
      n ≤ ring_size w.lookahead ∧
      tokOut1 (S.take w.lookahead.tl) t = S.take (w.lookahead.tl + n) ∧
      (t.l ≠ 0 → t.o < 256 ∧ t.o + 1 ≤ w.lookahead.tl) := by
  have hw0 := hw
  obtain ⟨hadj, hdtl, hltl, hD, hL, hlen, hbf⟩ := hw0
  obtain ⟨p, hp, hsound, hmax⟩ := kmp_search_correct w hw.toWndOK hlook
  have hlentake : (S.take w.lookahead.tl).length = w.lookahead.tl := by
    simp only [List.length_take]
    unfold ring_size at hL
    omega
  by_cases hnw : notWorth w p
  · -- literal token
    refine ⟨⟨w.bf (ring_mask w.lookahead.tl), 0⟩, 1, ?_, Nat.le_refl _, hlook, ?_, ?_⟩
    · simp only [matchLz, hp]
      rw [if_pos hnw]
    · show (if (0 : Nat) = 0 then _ else _) = _
      rw [if_pos rfl]
      have hbyte : w.bf (ring_mask w.lookahead.tl) = S.getD w.lookahead.tl 0 := by
        apply hbf
        · omega
        · unfold ring_size at hlook
          omega
      show S.take w.lookahead.tl ++ [w.bf (ring_mask w.lookahead.tl)] =
        S.take (w.lookahead.tl + 1)
      rw [hbyte, ← take_succ_getD]
      unfold ring_size at hlook hL
      omega
    · intro hcon
      exact absurd rfl hcon
  · -- back-reference token
    have h2 : 2 ≤ p.l := by
      by_contra hc
      exact hnw (Or.inl (by omega))
    have hleg : LegalMatch w p.o p.l := by
      rcases hsound with h0 | h
      · omega
      · exact h
    obtain ⟨hoD, hl1, hlm, hmatch⟩ := hleg
    have h64 : (2 : Nat) ^ 64 = 18446744073709551616 := by norm_num
    unfold ring_size at hD hL hlm hlook hoD
    have ho : ((2 ^ 64 + ring_size w.dictionary - (p.o + 1)) % 2 ^ 64) % 256 =
        ring_size w.dictionary - p.o - 1 := by
      rw [h64]
      unfold ring_size
      omega
    have hl : (p.l % 256 + 255) % 256 = p.l - 1 := by omega
    have hDval : ring_size w.dictionary = w.dictionary.hd - w.dictionary.tl := rfl
    refine ⟨⟨ring_size w.dictionary - p.o - 1, p.l - 1⟩, p.l, ?_, by omega,
      by unfold ring_size; omega, ?_, ?_⟩
    · simp only [matchLz, hp]
      rw [if_neg hnw, ho, hl]
    · show (if p.l - 1 = 0 then _ else _) = _
      rw [if_neg (by omega)]
      show S.take w.lookahead.tl ++
          overlapCopy (S.take w.lookahead.tl)
            ((ring_size w.dictionary - p.o - 1) + 1) ((p.l - 1) + 1) =
        S.take (w.lookahead.tl + p.l)
      rw [show (ring_size w.dictionary - p.o - 1) + 1 =
        ring_size w.dictionary - p.o from by rw [hDval]; omega,
        show (p.l - 1) + 1 = p.l from by omega]
      apply overlapCopy_source S _ _ (by rw [hDval]; omega) (by rw [hDval]; omega)
        p.l (by omega)
      intro k hk
      have hpat := hmatch k hk
      unfold patByte txtByte at hpat
      have hq1 : w.bf (ring_mask (w.lookahead.tl + k)) =
          S.getD (w.lookahead.tl + k) 0 := by
        apply hbf
        · omega
        · omega
      have hq2 : w.bf (ring_mask (w.dictionary.tl + (p.o + k))) =
          S.getD (w.dictionary.tl + (p.o + k)) 0 := by
        apply hbf
        · omega
        · omega
      rw [hq1, hq2] at hpat
      rw [hpat]
      congr 1
      rw [hDval]
      omega
    · intro _
      constructor
      · show ring_size w.dictionary - p.o - 1 < 256
        rw [hDval]
        omega
      · show (ring_size w.dictionary - p.o - 1) + 1 ≤ w.lookahead.tl
        rw [hDval]
        omega

/-- One `match` step, packaged: the shift amount, invariant
preservation, cursor tracking, the decoded extension of the source
prefix, and decodability of the produced token. -/
theorem tok_step (S : List Nat) (w : Wnd) (hw : SWnd S w)
    (hlook : 1 ≤ ring_size w.lookahead) (t : Mtch) (w2 : Wnd)
    (hml : matchLz w = some (t, w2)) :
    ∃ n, 1 ≤ n ∧ n ≤ ring_size w.lookahead ∧ SWnd S w2 ∧
      w2.lookahead.tl = w.lookahead.tl + n ∧
      w2.lookahead.hd = w.lookahead.hd ∧
      tokOut1 (S.take w.lookahead.tl) t = S.take (w.lookahead.tl + n) ∧
      (t.l ≠ 0 → t.o < 256 ∧ t.o + 1 ≤ w.lookahead.tl) := by
  obtain ⟨t2, n, hml2, hn1, hn2, hout, hleg⟩ := matchLz_sem S w hw hlook
  rw [hml] at hml2
  rw [Option.some.injEq, Prod.mk.injEq] at hml2
  obtain ⟨h1, h2⟩ := hml2
  subst h1
  subst h2
  exact ⟨n, hn1, hn2, SWnd_shift S w n hw hn2, rfl, rfl, hout, hleg⟩

/-- Semantics of the drain trace: starting from a window that has read
the whole source, the tokens decode the rest of the source exactly and
are decodable over the already-decoded prefix. -/
theorem drain_sem (S : List Nat) :
    ∀ (w : Wnd) (ts : List Mtch), DrainT w ts → SWnd S w →
      w.lookahead.hd = S.length →
      tokOut (S.take w.lookahead.tl) ts = S ∧
      TokLegal (S.take w.lookahead.tl) ts := by
  intro w ts hdrain
  induction hdrain with
  | done w hlook =>
    intro hw hhd
    unfold ring_size at hlook
    have h3 := hw.2.2.1
    have htl : w.lookahead.tl = S.length := by omega
    constructor
    · show S.take w.lookahead.tl = S
      rw [htl, List.take_length]
    · trivial
  | step w t w2 ts hlook hml hdrain ih =>
    intro hw hhd
    obtain ⟨n, hn1, hn2, hsw2, htl2, hhd2, hout, hleg⟩ :=
      tok_step S w hw (Nat.pos_of_ne_zero hlook) t w2 hml
    have hih := ih hsw2 (by rw [hhd2, hhd])
    rw [htl2] at hih
    have htllen : w.lookahead.tl ≤ S.length := by
      have h3 := hw.2.2.1
      have h6 := hw.2.2.2.2.2.1
      omega
    constructor
    · rw [tokOut_cons, hout]
      exact hih.1
    · refine ⟨?_, ?_⟩
      · intro hl
        refine ⟨(hleg hl).1, ?_⟩
        have := (hleg hl).2
        simp only [List.length_take]
        omega
      · rw [hout]
        exact hih.2

/-- Semantics of the whole compression trace: the tokens of a main-loop
trace decode back to the source. -/
theorem trace_sem (S : List Nat) :
    ∀ (w : Wnd) (src : List Nat) (ts : List Mtch), MainT w src ts →
      SWnd S w → src = S.drop w.lookahead.hd →
      tokOut (S.take w.lookahead.tl) ts = S ∧
      TokLegal (S.take w.lookahead.tl) ts := by
  intro w src ts hmain
  induction hmain with
  | eof w src w2 src2 ts hread hdrain =>
    intro hw hsrc
    subst hsrc
    obtain ⟨hw2, hdict, htl, hhd, hsrc2, heof, _⟩ :=
      wnd_read_sem S w hw w2 src2 true hread
    have hres := drain_sem S w2 ts hdrain hw2 (heof rfl)
    rw [htl] at hres
    exact hres
  | step w src w2 src2 t w3 ts hread hml hrec ih =>
    intro hw hsrc
    subst hsrc
    obtain ⟨hw2, hdict, htl, hhd, hsrc2, _, hfull⟩ :=
      wnd_read_sem S w hw w2 src2 false hread
    have hsize2 : ring_size w2.lookahead = 256 := hfull rfl
    obtain ⟨n, hn1, hn2, hsw3, htl3, hhd3, hout, hleg⟩ :=
      tok_step S w2 hw2 (by omega) t w3 hml
    have hih := ih hsw3 (by rw [hhd3, ← hsrc2])
    rw [htl3, htl] at hih
    rw [htl] at hout hleg
    have htllen : w.lookahead.tl ≤ S.length := by
      have h3 := hw.2.2.1
      have h6 := hw.2.2.2.2.2.1
      omega
    constructor
    · rw [tokOut_cons, hout]
      exact hih.1
    · refine ⟨?_, ?_⟩
      · intro hl
        refine ⟨(hleg hl).1, ?_⟩
        have := (hleg hl).2
        simp only [List.length_take]
        omega
      · rw [hout]
        exact hih.2

/-- When `match` succeeds, compress_helper cannot fail: the pending
group always has room under the context invariant. -/
theorem compress_helper_ok (T : Nat) (ctx : Ctx) (hctx : CtxC T ctx)
    (pr : Mtch × Wnd) (hml : matchLz ctx.w = some pr) :
    ∃ ctx2 bytes, compress_helper ctx = .ok (ctx2, bytes) := by
  obtain ⟨hmsk, hlen, hc⟩ := hctx
  obtain ⟨m, w2⟩ := pr
  have hmsk2 : rol ctx.msk = rolIter (T + 1) MSK0 := by rw [hmsk]; rfl
  have hg0 : (if rol ctx.msk % 2 = 1 then ([] : List Mtch) else ctx.g).length < 8 := by
    by_cases hbit : rol ctx.msk % 2 = 1
    · rw [if_pos hbit]
      simp
    · rw [if_neg hbit]
      rw [hmsk2, rolIter_low_bit] at hbit
      rw [hlen]
      split_ifs with hT
      · omega
      · omega
  cases hres : compress_helper ctx with
  | ok pr2 => exact ⟨pr2.1, pr2.2, rfl⟩
  | error e =>
    exfalso
    simp only [compress_helper, hml] at hres
    rw [if_pos hg0] at hres
    exact absurd hres (by simp)

/-- Every window with a non-empty lookahead yields a `match` token: the
KMP fuel bounds are sufficient. -/
theorem matchLz_some (w : Wnd) (hwf : WndOK w)
    (hlook : 1 ≤ ring_size w.lookahead) : ∃ pr, matchLz w = some pr := by
  obtain ⟨q, hq, _, _⟩ := kmp_search_correct w hwf hlook
  unfold matchLz
  rw [hq]
  show ∃ pr, (if notWorth w q then
      some ((⟨w.bf (ring_mask w.lookahead.tl), 0⟩ : Mtch), wnd_shift w 1)
    else
      some ((⟨((2 ^ 64 + ring_size w.dictionary - (q.o + 1)) % 2 ^ 64) % 256,
        (q.l % 256 + 255) % 256⟩ : Mtch), wnd_shift w q.l)) = some pr
  split_ifs with hnw
  · exact ⟨_, rfl⟩
  · exact ⟨_, rfl⟩

/-- The drain loop terminates successfully with any fuel above the
lookahead size. -/
theorem compressDrain_ok (S : List Nat) :
    ∀ (fuel T : Nat) (ctx : Ctx) (out : List Nat),
      SWnd S ctx.w → CtxC T ctx → ring_size ctx.w.lookahead < fuel →
      ∃ res, compressDrain fuel ctx out = .ok res := by
  intro fuel
  induction fuel with
  | zero =>
    intro T ctx out h1 h2 h3
    omega
  | succ fuel ih =>
    intro T ctx out hsw hctx hf
    by_cases hlook : ring_size ctx.w.lookahead = 0
    · by_cases hg : ctx.g = []
      · exact ⟨out, by simp only [compressDrain, if_pos hlook, if_pos hg]⟩
      · exact ⟨out ++ encode ctx.g ctx.c,
          by simp only [compressDrain, if_pos hlook, if_neg hg]⟩
    · obtain ⟨pr, hml⟩ := matchLz_some ctx.w hsw.toWndOK (Nat.pos_of_ne_zero hlook)
      obtain ⟨ctx2, bytes, hhelper⟩ := compress_helper_ok T ctx hctx pr hml
      obtain ⟨t, w2, hml2, hw2, hctx2, _⟩ :=
        (compress_helper_struct T ctx hctx).2 ctx2 bytes hhelper
      obtain ⟨n, hn1, hn2, hsw2, htl2, hhd2, _, _⟩ :=
        tok_step S ctx.w hsw (Nat.pos_of_ne_zero hlook) t w2 hml2
      have hsize2 : ring_size ctx2.w.lookahead < fuel := by
        rw [hw2]
        unfold ring_size at hf hn2 ⊢
        omega
      obtain ⟨res, hres⟩ := ih (T + 1) ctx2 (out ++ bytes)
        (by rw [hw2]; exact hsw2) hctx2 hsize2
      refine ⟨res, ?_⟩
      simp only [compressDrain, if_neg hlook, hhelper]
      exact hres

/-- The main compression loop terminates successfully with any fuel
above the remaining source length. -/
theorem compressMain_ok (S : List Nat) :
    ∀ (fuel T : Nat) (ctx : Ctx) (out : List Nat),
      SWnd S ctx.w → CtxC T ctx → ring_size ctx.w.lookahead ≤ 255 →
      S.length - ctx.w.lookahead.hd < fuel →
      ∃ res, compressMain fuel ctx (S.drop ctx.w.lookahead.hd) out = .ok res := by
  intro fuel
  induction fuel with
  | zero =>
    intro T ctx out h1 h2 h3 h4
    omega
  | succ fuel ih =>
    intro T ctx out hsw hctx hcap hf
    rcases hread : wnd_read ctx.w (S.drop ctx.w.lookahead.hd) with ⟨w2, src2, eof⟩
    obtain ⟨hw2, hdict, htl, hhd, hsrc2, heof, hfull⟩ :=
      wnd_read_sem S ctx.w hsw w2 src2 eof hread
    have hctx2 : CtxC T { ctx with w := w2 } := ⟨hctx.1, hctx.2.1, hctx.2.2⟩
    cases eof with
    | true =>
      obtain ⟨res, hres⟩ := compressDrain_ok S (ring_size w2.lookahead + 1) T
        { ctx with w := w2 } out hw2 hctx2
        (by show ring_size w2.lookahead < ring_size w2.lookahead + 1; omega)
      refine ⟨res, ?_⟩
      simp only [compressMain, hread]
      exact hres
    | false =>
      have hsize2 : ring_size w2.lookahead = 256 := hfull rfl
      have hlook2 : 1 ≤ ring_size w2.lookahead := by omega
      obtain ⟨pr, hml⟩ := matchLz_some w2 hw2.toWndOK hlook2
      obtain ⟨ctx3, bytes, hhelper⟩ := compress_helper_ok T { ctx with w := w2 }
        hctx2 pr hml
      obtain ⟨t, w3, hml3, hw3, hctx3, _⟩ :=
        (compress_helper_struct T { ctx with w := w2 } hctx2).2 ctx3 bytes hhelper
      obtain ⟨n, hn1, hn2, hsw3, htl3, hhd3, _, _⟩ :=
        tok_step S w2 hw2 hlook2 t w3 hml3
      have hhd2len : w2.lookahead.hd ≤ S.length := hw2.2.2.2.2.2.1
      have hprog : ctx.w.lookahead.hd < w2.lookahead.hd := by
        unfold ring_size at hsize2 hcap
        omega
      obtain ⟨res, hres⟩ := ih (T + 1) ctx3 (out ++ bytes)
        (by rw [hw3]; exact hsw3) hctx3
        (by rw [hw3]; unfold ring_size at hsize2 hn2 ⊢; omega)
        (by rw [hw3, hhd3]; omega)
      refine ⟨res, ?_⟩
      simp only [compressMain, hread, hhelper, Bool.false_eq_true, if_false]
      rw [show src2 = S.drop ctx3.w.lookahead.hd from by rw [hw3, hhd3]; exact hsrc2]
      exact hres

/-- Whole-stream compression always succeeds on a finite source. -/
theorem compress_ok (S : List Nat) (bf0 : Nat → Nat) :
    ∃ res, compress bf0 S = .ok res := by
  obtain ⟨res, hres⟩ := compressMain_ok S (S.length + 1) 0 (ctx_init bf0) []
    (SWnd_init S bf0) ⟨rfl, rfl, rfl⟩
    (by show (0 : Nat) - 0 ≤ 255; omega)
    (by show S.length - 0 < S.length + 1; omega)
  refine ⟨res, ?_⟩
  unfold compress
  rw [show S = S.drop ((ctx_init bf0).w.lookahead.hd) from (List.drop_zero S).symm]
  exact hres

/-- Each token contributes at least one byte to the serialized
stream. -/
theorem tokBytes_len : ∀ ts : List Mtch, ts.length ≤ (tokBytes ts).length := by
  intro ts
  induction ts with
  | nil => simp [tokBytes]
  | cons t ts ih =>
    show (t :: ts).length ≤
      ((if t.l = 0 then [t.v] else [t.o, t.l]) ++ tokBytes ts).length
    simp only [List.length_append, List.length_cons]
    split_ifs <;> simp only [List.length_cons, List.length_nil] <;> omega

/-- Polymorphic version of the drop/getD exchange. -/
theorem getD_drop_tok (l : List Mtch) (n k : Nat) (d : Mtch) :
    (l.drop n).getD k d = l.getD (n + k) d := by
  rcases Nat.lt_or_ge (n + k) l.length with h | h
  · rw [List.getD_eq_getElem _ _ (by simp only [List.length_drop]; omega),
      List.getD_eq_getElem _ _ h]
    exact List.getElem_drop _
  · rw [List.getD_eq_default _ _ (by simp only [List.length_drop]; omega),
      List.getD_eq_default _ _ h]

/-- One decoder token step, matching the encoder's token: the selector
bit picks the token kind, the output is extended by the token's decoded
bytes, and the rolling-buffer invariant is preserved. -/
theorem decTok_step (ctrl : Nat) (k : Nat) (t : Mtch) (hk8 : k < 8)
    (hbitk : Nat.testBit (ctrl % 256) k = decide (t.l ≠ 0)) (tail : List Nat)
    (buf : Nat → Nat) (mo : Nat) (out : List Nat) (hinv : DInv buf mo out)
    (hleg : t.l ≠ 0 → t.o < 256 ∧ t.o + 1 ≤ out.length) :
    ∃ buf2 mo2,
      decTok none (ctrl % 256) (rolIter (k + 1) MSK0)
        (if t.l = 0 then t.v else t.o)
        ((if t.l = 0 then [] else [t.l]) ++ tail) buf mo out =
        .ok (buf2, mo2, tokOut1 out t, if t.l = 0 then 0 else 1) ∧
      DInv buf2 mo2 (tokOut1 out t) := by
  have hmap : ctrl % 256 < 256 := Nat.mod_lt _ (by norm_num)
  have hsel : ((ctrl % 256) &&& rolIter (k + 1) MSK0 ≠ 0) ↔ (t.l ≠ 0) := by
    rw [land_rolIter_testBit (ctrl % 256) hmap k hk8, hbitk, decide_eq_true_eq]
  by_cases hl : t.l = 0
  · have htok1 : tokOut1 out t = out ++ [t.v] := by
      unfold tokOut1
      rw [if_pos hl]
    have hselF : ¬((ctrl % 256) &&& rolIter (k + 1) MSK0 ≠ 0) := by
      rw [hsel]
      simpa using hl
    refine ⟨updN buf mo t.v, (mo + 1) % 256, ?_, ?_⟩
    · simp only [if_pos hl, List.nil_append]
      rw [htok1]
      unfold decTok
      rw [if_neg hselF]
      rfl
    · rw [htok1]
      exact DInv_append buf mo out t.v hinv
  · have htok1 : tokOut1 out t = out ++ overlapCopy out (t.o + 1) (t.l + 1) := by
      unfold tokOut1
      rw [if_neg hl]
    have hselT : (ctrl % 256) &&& rolIter (k + 1) MSK0 ≠ 0 := hsel.mpr hl
    obtain ⟨ho256, hdist⟩ := hleg hl
    obtain ⟨buf2, hrun, hinv2⟩ :=
      copyLoop_ok (t.o + 1) (by omega) (by omega) (t.l + 1) buf mo out hinv hdist
    refine ⟨buf2, (out.length + (t.l + 1)) % 256, ?_, ?_⟩
    · simp only [if_neg hl, List.singleton_append]
      rw [htok1]
      unfold decTok
      rw [if_pos hselT]
      simp only [hrun]
    · rw [htok1]
      exact hinv2

/-- Decoding the serialized tokens of one group from in-group position
`k ≥ 1` on: the stream advances to the continuation with the mask
rotated to the group's length and the output extended by the decoded
tokens. -/
theorem decGroupTokens :
    ∀ (rem : List Mtch) (g0 : List Mtch) (k : Nat) (more : List Nat)
      (buf : Nat → Nat) (mo : Nat) (out : List Nat),
      1 ≤ k → g0.length ≤ 8 → k + rem.length = g0.length →
      (∀ j, j < rem.length →
        Nat.testBit (ctrlOf g0 % 256) (k + j) =
          decide ((rem.getD j ⟨0, 0⟩).l ≠ 0)) →
      DInv buf mo out → TokLegal out rem →
      ∃ buf2 mo2, DInv buf2 mo2 (tokOut out rem) ∧
        ∀ fuel, rem.length ≤ fuel →
          decLoop none fuel (tokBytes rem ++ more) (ctrlOf g0 % 256)
            (rolIter k MSK0) buf mo out =
          decLoop none (fuel - rem.length) more (ctrlOf g0 % 256)
            (rolIter g0.length MSK0) buf2 mo2 (tokOut out rem) := by
  intro rem
  induction rem with
  | nil =>
    intro g0 k more buf mo out hk1 hg8 hklen hbits hinv hleg
    have hkg : k = g0.length := by
      simp only [List.length_nil] at hklen
      omega
    subst hkg
    exact ⟨buf, mo, hinv, fun fuel hfuel => rfl⟩
  | cons t rem ih =>
    intro g0 k more buf mo out hk1 hg8 hklen hbits hinv hleg
    simp only [List.length_cons] at hklen
    have hk8 : k < 8 := by omega
    obtain ⟨hlegt, hlegrest⟩ := hleg
    have hbit0 : Nat.testBit (ctrlOf g0 % 256) k = decide (t.l ≠ 0) := by
      have := hbits 0 (by simp)
      simpa using this
    obtain ⟨buf2, mo2, hdec, hinv2⟩ := decTok_step (ctrlOf g0) k t hk8 hbit0
      (tokBytes rem ++ more) buf mo out hinv hlegt
    have hbits2 : ∀ j, j < rem.length →
        Nat.testBit (ctrlOf g0 % 256) (k + 1 + j) =
          decide ((rem.getD j ⟨0, 0⟩).l ≠ 0) := by
      intro j hj
      have := hbits (j + 1) (by simp only [List.length_cons]; omega)
      rw [show k + (j + 1) = k + 1 + j from by omega] at this
      simpa using this
    obtain ⟨buf3, mo3, hinv3, hrun⟩ := ih g0 (k + 1) more buf2 mo2 (tokOut1 out t)
      (by omega) hg8 (by omega) hbits2 hinv2 hlegrest
    refine ⟨buf3, mo3, by rw [tokOut_cons]; exact hinv3, ?_⟩
    intro fuel hfuel
    simp only [List.length_cons] at hfuel
    cases fuel with
    | zero => omega
    | succ f =>
      have hmsk : rol (rolIter k MSK0) = rolIter (k + 1) MSK0 := rfl
      have hbitF : ¬((rolIter (k + 1) MSK0) % 2 = 1) := by
        rw [rolIter_low_bit]
        omega
      have hfuelsub : (f + 1) - (t :: rem).length = f - rem.length := by
        simp only [List.length_cons]
        omega
      by_cases hl : t.l = 0
      · have hstream : tokBytes (t :: rem) ++ more = t.v :: (tokBytes rem ++ more) := by
          show ((if t.l = 0 then [t.v] else [t.o, t.l]) ++ tokBytes rem) ++ more = _
          rw [if_pos hl]
          simp
        rw [hstream, decLoop.eq_def]
        simp only [hmsk, if_neg hbitF]
        simp only [if_pos hl, List.nil_append] at hdec
        simp only [hdec, List.drop_zero]
        rw [hrun f (by omega), hfuelsub, tokOut_cons]
      · have hstream : tokBytes (t :: rem) ++ more =
            t.o :: t.l :: (tokBytes rem ++ more) := by
          show ((if t.l = 0 then [t.v] else [t.o, t.l]) ++ tokBytes rem) ++ more = _
          rw [if_neg hl]
          simp
        rw [hstream, decLoop.eq_def]
        simp only [hmsk, if_neg hbitF]
        simp only [if_neg hl, List.singleton_append] at hdec
        simp only [hdec, List.drop_succ_cons, List.drop_zero]
        rw [hrun f (by omega), hfuelsub, tokOut_cons]

/-- Decoding a serialized group list: with the mask at a group boundary
the decoder reproduces exactly the decoded token stream. -/
theorem decGroups_ok :
    ∀ (gps : List (Nat × List Mtch)) (fuel : Nat) (map : Nat) (buf : Nat → Nat)
      (mo : Nat) (out : List Nat),
      (∀ gp ∈ gps, gp.1 = ctrlOf gp.2 ∧ 1 ≤ gp.2.length ∧ gp.2.length ≤ 8) →
      (∀ gp ∈ gps.dropLast, gp.2.length = 8) →
      TokLegal out ((gps.map Prod.snd).flatten) →
      DInv buf mo out →
      (serializeGroups gps).length < fuel →
      decLoop none fuel (serializeGroups gps) map MSK0 buf mo out =
        .ok (tokOut out ((gps.map Prod.snd).flatten)) := by
  intro gps
  induction gps with
  | nil =>
    intro fuel map buf mo out hmem hlast hleg hinv hfuel
    cases fuel with
    | zero => simp [serializeGroups] at hfuel
    | succ f => rfl
  | cons gp gps ih =>
    intro fuel map buf mo out hmem hlast hleg hinv hfuel
    obtain ⟨ctrl, g⟩ := gp
    obtain ⟨hctrl, hg1, hg8⟩ := hmem (ctrl, g) (by simp)
    simp only at hctrl hg1 hg8
    cases hgc : g with
    | nil =>
      rw [hgc] at hg1
      simp at hg1
    | cons t0 g2 =>
      subst hgc
      subst hctrl
      have hflat : (((ctrlOf (t0 :: g2), t0 :: g2) :: gps).map Prod.snd).flatten =
          (t0 :: g2) ++ (gps.map Prod.snd).flatten := by
        simp
      rw [hflat] at hleg ⊢
      obtain ⟨hleg1, hleg2⟩ := TokLegal_append (t0 :: g2) ((gps.map Prod.snd).flatten) out hleg
      obtain ⟨hlegt0, hlegg2⟩ := hleg1
      have hbits : ∀ j, j < (t0 :: g2).length →
          Nat.testBit (ctrlOf (t0 :: g2) % 256) j =
            decide (((t0 :: g2).getD j ⟨0, 0⟩).l ≠ 0) := by
        intro j hj
        rw [List.getD_eq_getElem _ _ hj]
        have := ctrlOf_byte_testBit (t0 :: g2) hg8 j hj
        simpa using this
      have hbit0 : Nat.testBit (ctrlOf (t0 :: g2) % 256) 0 = decide (t0.l ≠ 0) := by
        have := hbits 0 (by simp)
        simpa using this
      obtain ⟨buf2, mo2, hdec, hinv2⟩ := decTok_step (ctrlOf (t0 :: g2)) 0 t0
        (by omega) hbit0 (tokBytes g2 ++ serializeGroups gps) buf mo out hinv hlegt0
      have hbits2 : ∀ j, j < g2.length →
          Nat.testBit (ctrlOf (t0 :: g2) % 256) (1 + j) =
            decide ((g2.getD j ⟨0, 0⟩).l ≠ 0) := by
        intro j hj
        have := hbits (j + 1) (by simp only [List.length_cons]; omega)
        rw [show (1 : Nat) + j = j + 1 from by omega]
        simpa using this
      obtain ⟨buf3, mo3, hinv3, hrun⟩ := decGroupTokens g2 (t0 :: g2) 1
        (serializeGroups gps) buf2 mo2 (tokOut1 out t0) (Nat.le_refl _) hg8
        (by simp only [List.length_cons]; omega) hbits2 hinv2 hlegg2
      have hserlen : (serializeGroups ((ctrlOf (t0 :: g2), t0 :: g2) :: gps)).length =
          1 + (tokBytes (t0 :: g2)).length + (serializeGroups gps).length := by
        show (encode (t0 :: g2) (ctrlOf (t0 :: g2)) ++ serializeGroups gps).length = _
        simp only [encode, List.length_append, List.length_cons]
        omega
      have htblen := tokBytes_len (t0 :: g2)
      simp only [List.length_cons] at htblen
      cases fuel with
      | zero => omega
      | succ f =>
        have hstream : serializeGroups ((ctrlOf (t0 :: g2), t0 :: g2) :: gps) =
            (ctrlOf (t0 :: g2) % 256) ::
              ((if t0.l = 0 then [t0.v] else [t0.o, t0.l]) ++
                (tokBytes g2 ++ serializeGroups gps)) := by
          show encode (t0 :: g2) (ctrlOf (t0 :: g2)) ++ serializeGroups gps = _
          simp only [encode]
          show (ctrlOf (t0 :: g2) % 256) :: (tokBytes (t0 :: g2) ++ serializeGroups gps) = _
          congr 1
          show ((if t0.l = 0 then [t0.v] else [t0.o, t0.l]) ++ tokBytes g2) ++
            serializeGroups gps = _
          rw [List.append_assoc]
        have hmsk : rol MSK0 = rolIter 1 MSK0 := rfl
        have hbit1 : (rolIter 1 MSK0) % 2 = 1 := by
          rw [rolIter_low_bit]
        have hfuellen : f ≥ 1 + (tokBytes (t0 :: g2)).length +
            (serializeGroups gps).length := by
          rw [hserlen] at hfuel
          omega
        by_cases hl : t0.l = 0
        · have hstream2 : serializeGroups ((ctrlOf (t0 :: g2), t0 :: g2) :: gps) =
              (ctrlOf (t0 :: g2) % 256) ::
                t0.v :: (tokBytes g2 ++ serializeGroups gps) := by
            rw [hstream, if_pos hl]
            simp
          rw [hstream2, decLoop.eq_def]
          simp only [hmsk, if_pos hbit1]
          simp only [if_pos hl, List.nil_append, Nat.zero_add] at hdec
          simp only [hdec, List.drop_zero]
          have hrunf := hrun f (by omega)
          rw [hrunf]
          cases gps with
          | nil =>
            have hfg : 1 ≤ f - g2.length := by
              have : (serializeGroups ([] : List (Nat × List Mtch))).length = 0 := rfl
              omega
            obtain ⟨m, hm⟩ : ∃ m, f - g2.length = m + 1 :=
              ⟨f - g2.length - 1, by omega⟩
            rw [show serializeGroups ([] : List (Nat × List Mtch)) = [] from rfl, hm]
            simp only [List.map_nil, List.flatten_nil, List.append_nil]
            rw [tokOut_cons]
            rfl
          | cons gp2 gps2 =>
            have hglen : (t0 :: g2).length = 8 := by
              apply hlast (ctrlOf (t0 :: g2), t0 :: g2)
              rw [List.dropLast_cons_of_ne_nil (by simp)]
              simp
            rw [show ((t0 :: g2) : List Mtch).length = g2.length + 1 from by simp] at hglen
            rw [show rolIter ((t0 :: g2) : List Mtch).length MSK0 = MSK0 from by
              show rolIter (g2.length + 1) MSK0 = MSK0
              rw [show g2.length + 1 = 8 from hglen]
              exact rolIter_eight]
            rw [List.cons_append, tokOut_cons, tokOut_append]
            apply ih (f - g2.length) (ctrlOf (t0 :: g2) % 256) buf3 mo3
              (tokOut (tokOut1 out t0) g2)
              (fun gp hgp => hmem gp (by simp [hgp]))
              (fun gp hgp => hlast gp (by
                rw [List.dropLast_cons_of_ne_nil (by simp)]
                simp [hgp]))
              (by rw [← tokOut_cons]; exact hleg2)
              hinv3
              (by omega)
        · have hstream2 : serializeGroups ((ctrlOf (t0 :: g2), t0 :: g2) :: gps) =
              (ctrlOf (t0 :: g2) % 256) ::
                t0.o :: t0.l :: (tokBytes g2 ++ serializeGroups gps) := by
            rw [hstream, if_neg hl]
            simp
          rw [hstream2, decLoop.eq_def]
          simp only [hmsk, if_pos hbit1]
          simp only [if_neg hl, List.singleton_append, Nat.zero_add] at hdec
          simp only [hdec, List.drop_succ_cons, List.drop_zero]
          have hrunf := hrun f (by omega)
          rw [hrunf]
          cases gps with
          | nil =>
            have hfg : 1 ≤ f - g2.length := by
              have : (serializeGroups ([] : List (Nat × List Mtch))).length = 0 := rfl
              omega
            obtain ⟨m, hm⟩ : ∃ m, f - g2.length = m + 1 :=
              ⟨f - g2.length - 1, by omega⟩
            rw [show serializeGroups ([] : List (Nat × List Mtch)) = [] from rfl, hm]
            simp only [List.map_nil, List.flatten_nil, List.append_nil]
            rw [tokOut_cons]
            rfl
          | cons gp2 gps2 =>
            have hglen : (t0 :: g2).length = 8 := by
              apply hlast (ctrlOf (t0 :: g2), t0 :: g2)
              rw [List.dropLast_cons_of_ne_nil (by simp)]
              simp
            rw [show ((t0 :: g2) : List Mtch).length = g2.length + 1 from by simp] at hglen
            rw [show rolIter ((t0 :: g2) : List Mtch).length MSK0 = MSK0 from by
              show rolIter (g2.length + 1) MSK0 = MSK0
              rw [show g2.length + 1 = 8 from hglen]
              exact rolIter_eight]
            rw [List.cons_append, tokOut_cons, tokOut_append]
            apply ih (f - g2.length) (ctrlOf (t0 :: g2) % 256) buf3 mo3
              (tokOut (tokOut1 out t0) g2)
              (fun gp hgp => hmem gp (by simp [hgp]))
              (fun gp hgp => hlast gp (by
                rw [List.dropLast_cons_of_ne_nil (by simp)]
                simp [hgp]))
              (by rw [← tokOut_cons]; exact hleg2)
              hinv3
              (by omega)

/-- The grouping partitions the token stream: concatenating the groups
gives back the stream. -/
theorem groupTok_flatten :
    ∀ (n : Nat) (ts : List Mtch), ts.length ≤ n →
      ((groupTok ts).map Prod.snd).flatten = ts := by
  intro n
  induction n with
  | zero =>
    intro ts h
    have hnil : ts = [] := List.length_eq_zero.mp (by omega)
    subst hnil
    simp [groupTok]
  | succ n ih =>
    intro ts h
    cases ts with
    | nil => simp [groupTok]
    | cons t ts2 =>
      rw [groupTok.eq_def]
      simp only [List.map_cons, List.flatten_cons]
      rw [ih ((t :: ts2).drop 8)
        (by simp only [List.length_drop, List.length_cons] at h ⊢; omega)]
      exact List.take_append_drop 8 (t :: ts2)

/-- Every group except possibly the last holds exactly 8 tokens. -/
theorem groupTok_dropLast_full :
    ∀ (n : Nat) (ts : List Mtch), ts.length ≤ n →
      ∀ gp ∈ (groupTok ts).dropLast, gp.2.length = 8 := by
  intro n
  induction n with
  | zero =>
    intro ts h gp hgp
    have hnil : ts = [] := List.length_eq_zero.mp (by omega)
    subst hnil
    simp [groupTok] at hgp
  | succ n ih =>
    intro ts h gp hgp
    cases ts with
    | nil => simp [groupTok] at hgp
    | cons t ts2 =>
      rw [groupTok.eq_def] at hgp
      simp only at hgp
      by_cases hlen : (t :: ts2).length ≤ 8
      · have hdrop : (t :: ts2).drop 8 = [] := List.drop_eq_nil_of_le hlen
        rw [hdrop] at hgp
        simp [groupTok] at hgp
      · have hdropne : (t :: ts2).drop 8 ≠ [] := by
          intro hcon
          have hld : ((t :: ts2).drop 8).length = (t :: ts2).length - 8 := by
            simp
          rw [hcon] at hld
          simp only [List.length_nil] at hld
          omega
        have hgtne : groupTok ((t :: ts2).drop 8) ≠ [] := by
          cases hdrop8 : (t :: ts2).drop 8 with
          | nil => exact absurd hdrop8 hdropne
          | cons a b =>
            rw [groupTok.eq_def]
            simp
        rw [List.dropLast_cons_of_ne_nil hgtne] at hgp
        rcases List.mem_cons.mp hgp with h1 | h1
        · subst h1
          show ((t :: ts2).take 8).length = 8
          simp only [List.length_cons] at hlen
          simp only [List.length_take, List.length_cons]
          omega
        · exact ih ((t :: ts2).drop 8)
            (by simp only [List.length_drop, List.length_cons] at h ⊢; omega) gp h1

/-- Claim C1: round trip.  Compressing any finite byte sequence
succeeds, and decompressing the produced stream (with an unbounded sink,
i.e. absent I/O errors) returns success with exactly the original
sequence, for every initial content of the compressor's and decoder's
uninitialized buffers and control register. -/
theorem c1_round_trip (S : List Nat) (hS : ∀ b ∈ S, b < 256)
    (bf0 buf0 : Nat → Nat) (map0 : Nat) :
    ∃ out, compress bf0 S = .ok out ∧ decompress none buf0 map0 out = .ok S := by
  obtain ⟨res, hres⟩ := compress_ok S bf0
  obtain ⟨ts, hts, heq⟩ := (compress_struct bf0 S).2 res hres
  have hsem := trace_sem S (wnd_init bf0) S ts hts (SWnd_init S bf0)
    (List.drop_zero S).symm
  have hdec : tokOut [] ts = S := hsem.1
  have hlegal : TokLegal [] ts := hsem.2
  have hgrp := groupTok_mem ts.length ts (Nat.le_refl _)
  have hlast := groupTok_dropLast_full ts.length ts (Nat.le_refl _)
  have hflat := groupTok_flatten ts.length ts (Nat.le_refl _)
  have hinv0 : DInv buf0 0 [] := by
    refine ⟨rfl, ?_⟩
    intro d h1 h2 h3
    simp only [List.length_nil] at h3
    exact absurd h2 (by omega)
  have hrun := decGroups_ok (groupTok ts)
    ((serializeGroups (groupTok ts)).length + 1) map0 buf0 0 []
    hgrp hlast (by rw [hflat]; exact hlegal) hinv0 (by omega)
  rw [hflat, hdec] at hrun
  refine ⟨res, hres, ?_⟩
  unfold decompress
  rw [heq]
  exact hrun

/-- Witness for C1 on a concrete byte sequence. -/
theorem c1_round_trip_witness :
    (∀ b ∈ [1, 2, 1, 2, 1, 2, 1, 2, 1, 2], b < 256) ∧
    ∃ out, compress (fun _ => 0) [1, 2, 1, 2, 1, 2, 1, 2, 1, 2] = .ok out ∧
      decompress none (fun _ => 0) 0 out = .ok [1, 2, 1, 2, 1, 2, 1, 2, 1, 2] :=
  ⟨by decide,
    c1_round_trip [1, 2, 1, 2, 1, 2, 1, 2, 1, 2] (by decide)
      (fun _ => 0) (fun _ => 0) 0⟩

end Lzpi
